import Mathlib

/-!
Retry engine of `dm/pkg/retry/strategy.go`.

A shallow embedding of `FiniteRetryStrategy.Apply` and a verification of the
retry contract against it.

The Go function calls three things whose behaviour it does not control: the
operation `operateFn`, the predicate `Params.IsRetryableFn` and the `select`
that races `ctx.Context().Done()` against `time.After(duration)`.  The
predicate is a field of `Params`.  The other two are answered by an
environment `Env`: the outcome of the `j`-th invocation of `operateFn` and
the branch taken by the `j`-th `select` (both counted from 0).  Every call
is recorded in an event trace, so that "how often was the operation
invoked" and "which waits were requested" are read off the run.

Integers: `RetryCount` and the loop index `i` are Go `int`, a
`time.Duration` is an `int64`.  The loop index satisfies
`0 <= i < RetryCount` inside the loop, so `i + 1` cannot overflow; the
product `time.Duration(i+1) * FirstRetryDuration` can, and wraps as Go
`int64` multiplication does.

The second part, namespace `Master`, is the scheduler that
`dm/master/openapi_controller_test.go` drives.  The functions the test calls
are not among the sources at hand, so that part is a model written from the
specification, and every definition in it says so.
-/

namespace Retry

/-! ## Data model -/

/-- Type `backoffStrategy`, a `uint8`; no arithmetic is done on its values,
they are only compared with `LinearIncrease`. -/
abbrev backoffStrategy : Type := Nat

/-- Constant `Stable` of the enum `backoffStrategy` (`iota + 1`). -/
def Stable : backoffStrategy := 1

/-- Constant `LinearIncrease` of the enum `backoffStrategy`. -/
def LinearIncrease : backoffStrategy := 2

/-- Struct `Params`.  `ε` is the type of non-nil errors; a Go `error` is an
`Option ε` with `none` for `nil`. -/
structure Params (ε : Type) where
  RetryCount : Int
  FirstRetryDuration : Int
  BackoffStrategy : backoffStrategy
  IsRetryableFn : Int → ε → Bool

/-- Two's complement reduction of an integer to the range of `int64`. -/
def wrapInt64 (x : Int) : Int := (x + 2 ^ 63) % 2 ^ 64 - 2 ^ 63

/-- What `Apply` does to the outside world.  `ρ` is the type of non-nil
results; an `interface{}` result is an `Option ρ`. -/
inductive Event (ρ ε : Type) where
  /-- In iteration `i`, `operateFn(ctx)` was called and returned `(ret, err)`. -/
  | invoke (i : Int) (ret : Option ρ) (err : Option ε)
  /-- The call `params.IsRetryableFn(i, err)` was made and returned `answer`. -/
  | consult (i : Int) (err : ε) (answer : Bool)
  /-- After attempt `i` the `select` was entered with `time.After(duration)`;
  `elapsed` is `false` when `ctx.Context().Done()` was received instead. -/
  | wait (i : Int) (duration : Int) (elapsed : Bool)
  deriving DecidableEq, Repr

/-- The environment of one call of `Apply`. -/
structure Env (ρ ε : Type) where
  /-- Return values of the `j`-th invocation of `operateFn`. -/
  operateFn : Nat → Option ρ × Option ε
  /-- Whether the `j`-th `select` receives from `ctx.Context().Done()`. -/
  ctxDone : Nat → Bool

/-- Number of invocations of the operation recorded in a trace. -/
def invocations {ρ ε : Type} : List (Event ρ ε) → Nat
  | [] => 0
  | .invoke _ _ _ :: tr => invocations tr + 1
  | _ :: tr => invocations tr

/-- Number of `select` statements (waits requested) recorded in a trace. -/
def selects {ρ ε : Type} : List (Event ρ ε) → Nat
  | [] => 0
  | .wait _ _ _ :: tr => selects tr + 1
  | _ :: tr => selects tr

/-- The named results `ret`, `i`, `err` of `Apply`, with the trace so far. -/
structure Run (ρ ε : Type) where
  ret : Option ρ
  i : Int
  err : Option ε
  trace : List (Event ρ ε)
  deriving DecidableEq, Repr

/-- How one pass through the loop body ends. -/
inductive Step (α : Type) where
  /-- The statement `continue` was reached (the post statement `i++` is done). -/
  | next (s : α)
  /-- The loop was left by `break` or by the `return` inside the `select`;
  both return the current `ret, i, err`. -/
  | done (s : α)

/-! ## The code -/

/-- One pass through the body of the `for` loop of `Apply` (lines 84-106). -/
def body {ρ ε : Type} (params : Params ε) (env : Env ρ ε) (s : Run ρ ε) : Step (Run ρ ε) :=
  let out := env.operateFn (invocations s.trace)
  let ret := out.1
  let err := out.2
  let tr := s.trace ++ [Event.invoke s.i ret err]
  match err with
  | some e =>
    if params.IsRetryableFn s.i e then
      let duration :=
        if params.BackoffStrategy = LinearIncrease then
          wrapInt64 ((s.i + 1) * params.FirstRetryDuration)
        else params.FirstRetryDuration
      let tr := tr ++ [Event.consult s.i e true]
      if env.ctxDone (selects tr) then
        Step.done ⟨ret, s.i, err, tr ++ [Event.wait s.i duration false]⟩
      else
        Step.next ⟨ret, s.i + 1, err, tr ++ [Event.wait s.i duration true]⟩
    else
      Step.done ⟨ret, s.i, err, tr ++ [Event.consult s.i e false]⟩
  | none => Step.done ⟨ret, s.i, err, tr⟩

/-- The loop `for ; i < params.RetryCount; i++` of `Apply`.  The first
argument bounds the number of passes; `none` means the bound was too small. -/
def applyLoop {ρ ε : Type} (params : Params ε) (env : Env ρ ε) :
    Nat → Run ρ ε → Option (Run ρ ε)
  | 0, s => if s.i < params.RetryCount then none else some s
  | fuel + 1, s =>
    if s.i < params.RetryCount then
      match body params env s with
      | Step.next s' => applyLoop params env fuel s'
      | Step.done s' => some s'
    else some s

/-- Method `FiniteRetryStrategy.Apply`: the named results start at their zero
values and the loop runs at most `RetryCount` times. -/
def FiniteRetryStrategy.Apply {ρ ε : Type} (params : Params ε) (env : Env ρ ε) :
    Option (Run ρ ε) :=
  applyLoop params env params.RetryCount.toNat ⟨none, 0, none, []⟩

/-! ## Reading a run -/

/-- Attempt `j` fails with an error that the predicate accepts as retryable
when asked with the 0-based attempt index `j`. -/
def FailsRetryably {ρ ε : Type} (params : Params ε) (env : Env ρ ε) (j : Nat) : Prop :=
  ∃ e, (env.operateFn j).2 = some e ∧ params.IsRetryableFn (j : Int) e = true

/-- Attempt `j` is followed by another pass of the loop: it fails with a
retryable error and the wait after it elapses. -/
def retried {ρ ε : Type} (params : Params ε) (env : Env ρ ε) (j : Nat) : Bool :=
  match (env.operateFn j).2 with
  | some e => params.IsRetryableFn (j : Int) e && !env.ctxDone j
  | none => false

/-- The duration handed to `time.After` after the failed attempt `i`. -/
def backoff {ε : Type} (params : Params ε) (i : Int) : Int :=
  if params.BackoffStrategy = LinearIncrease then
    wrapInt64 ((i + 1) * params.FirstRetryDuration)
  else params.FirstRetryDuration

/-- The events of the `j`-th pass through the loop body. -/
def attemptEvents {ρ ε : Type} (params : Params ε) (env : Env ρ ε) (j : Nat) :
    List (Event ρ ε) :=
  match (env.operateFn j).2 with
  | none => [Event.invoke j (env.operateFn j).1 none]
  | some e =>
    if params.IsRetryableFn (j : Int) e then
      [Event.invoke j (env.operateFn j).1 (some e), Event.consult j e true,
        Event.wait j (backoff params j) (!env.ctxDone j)]
    else
      [Event.invoke j (env.operateFn j).1 (some e), Event.consult j e false]

/-- The events of the first `k` passes through the loop body. -/
def attemptsTrace {ρ ε : Type} (params : Params ε) (env : Env ρ ε) :
    Nat → List (Event ρ ε)
  | 0 => []
  | k + 1 => attemptsTrace params env k ++ attemptEvents params env k

/-- The events of the `len` passes through the loop body that start with
pass `a`. -/
def attemptsFrom {ρ ε : Type} (params : Params ε) (env : Env ρ ε) :
    Nat → Nat → List (Event ρ ε)
  | _, 0 => []
  | a, len + 1 => attemptEvents params env a ++ attemptsFrom params env (a + 1) len

/-- The variables at the loop head after `k` passes that all ended in `continue`. -/
def stateAt {ρ ε : Type} (params : Params ε) (env : Env ρ ε) : Nat → Run ρ ε
  | 0 => ⟨none, 0, none, []⟩
  | k + 1 => ⟨(env.operateFn k).1, (k : Int) + 1, (env.operateFn k).2,
      attemptsTrace params env (k + 1)⟩

/-- The variables when pass `k` leaves the loop by `break` or `return`. -/
def stopAt {ρ ε : Type} (params : Params ε) (env : Env ρ ε) (k : Nat) : Run ρ ε :=
  ⟨(env.operateFn k).1, (k : Int), (env.operateFn k).2, attemptsTrace params env (k + 1)⟩

/-- Durations of the waits that elapsed, in the order they were made. -/
def elapsedWaits {ρ ε : Type} : List (Event ρ ε) → List Int
  | [] => []
  | .wait _ d true :: tr => d :: elapsedWaits tr
  | _ :: tr => elapsedWaits tr

/-- Scan for the wait that comes directly before the invocation of attempt
`i`; `last` is the duration of the wait just seen, if the previous event was
a wait. -/
def waitBeforeAux {ρ ε : Type} (i : Int) : Option Int → List (Event ρ ε) → Option Int
  | _, [] => none
  | last, .invoke j _ _ :: tr => if j = i then last else waitBeforeAux i none tr
  | _, .wait _ d _ :: tr => waitBeforeAux i (some d) tr
  | _, .consult _ _ _ :: tr => waitBeforeAux i none tr

/-- The duration of the wait made directly before attempt `i` (0-indexed),
if attempt `i` was made and was preceded by a wait. -/
def waitBefore {ρ ε : Type} (tr : List (Event ρ ε)) (i : Int) : Option Int :=
  waitBeforeAux i none tr

/-- The ways a call of `Apply` ends. -/
inductive Exit where
  /-- The last attempt returned a nil error (`break` at line 106). -/
  | success
  /-- The predicate rejected the last error (`break` at line 106). -/
  | notRetryable
  /-- The context was done during a wait (`return` at line 99). -/
  | cancelled
  /-- The loop condition `i < params.RetryCount` failed. -/
  | budget
  deriving DecidableEq, Repr

/-- How the run ended, read off the last thing it did: a failed attempt is
always followed by a call of the predicate, and a positive answer by a wait,
so a trace ends in an invocation only on success and in an answer of the
predicate only when the answer is negative. -/
def exitOf {ρ ε : Type} (tr : List (Event ρ ε)) : Exit :=
  match tr.getLast? with
  | some (.invoke _ _ _) => Exit.success
  | some (.consult _ _ _) => Exit.notRetryable
  | some (.wait _ _ false) => Exit.cancelled
  | some (.wait _ _ true) => Exit.budget
  | none => Exit.budget

/-- The calls of the predicate recorded in a trace, in order: the index and
the error that were passed. -/
def consults {ρ ε : Type} : List (Event ρ ε) → List (Int × ε)
  | [] => []
  | .consult i e _ :: tr => (i, e) :: consults tr
  | _ :: tr => consults tr

/-- The failed attempts recorded in a trace, in order: the loop index of the
attempt and the non-nil error it returned. -/
def failures {ρ ε : Type} : List (Event ρ ε) → List (Int × ε)
  | [] => []
  | .invoke i _ (some e) :: tr => (i, e) :: failures tr
  | _ :: tr => failures tr

/-- The loop indices at which the operation was invoked, in order. -/
def invokeIndices {ρ ε : Type} : List (Event ρ ε) → List Int
  | [] => []
  | .invoke i _ _ :: tr => i :: invokeIndices tr
  | _ :: tr => invokeIndices tr

/-- Struct `FiniteRetryer`.  The embedded `FiniteRetryStrategy` has no
fields; `Params` is a pointer, `none` for nil. -/
structure FiniteRetryer (ε : Type) where
  Params : Option (Retry.Params ε)

/-- Method `FiniteRetryer.Apply` (line 123): it passes `*s.Params` to
`FiniteRetryStrategy.Apply`.  Dereferencing a nil `Params` panics, so the
call has no result then. -/
def FiniteRetryer.Apply {ρ ε : Type} (s : FiniteRetryer ε) (env : Env ρ ε) :
    Option (Run ρ ε) :=
  match s.Params with
  | some params => FiniteRetryStrategy.Apply params env
  | none => none

/-! ## Concrete parameters and environments -/

/-- Parameters whose predicate accepts every error. -/
def retryAll (retryCount firstRetryDuration : Int) (strategy : backoffStrategy) :
    Params Nat :=
  ⟨retryCount, firstRetryDuration, strategy, fun _ _ => true⟩

/-- Parameters whose predicate rejects exactly the error `13`. -/
def retryUnless13 (retryCount firstRetryDuration : Int) (strategy : backoffStrategy) :
    Params Nat :=
  ⟨retryCount, firstRetryDuration, strategy, fun _ e => e != 13⟩

/-- An operation whose `j`-th invocation fails with error `100 + j` and
partial result `j`; the context is never done. -/
def alwaysFails : Env Nat Nat :=
  ⟨fun j => (some j, some (100 + j)), fun _ => false⟩

/-- An operation that fails before invocation `k` and succeeds at it with
result `j`; the context is never done. -/
def succeedsAt (k : Nat) : Env Nat Nat :=
  ⟨fun j => if j < k then (some j, some (100 + j)) else (some j, none), fun _ => false⟩

/-- An operation that fails with error `100 + j` before invocation `k` and
with error `13` from then on; the context is never done. -/
def fails13At (k : Nat) : Env Nat Nat :=
  ⟨fun j => if j < k then (some j, some (100 + j)) else (some j, some 13), fun _ => false⟩

/-- An always failing operation under a context that is done during the wait
numbered `k` (and from then on). -/
def cancelledAt (k : Nat) : Env Nat Nat :=
  ⟨fun j => (some j, some (100 + j)), fun j => decide (k ≤ j)⟩

end Retry

namespace Master

/-! ## The scheduler behind `openapi_controller_test.go`

The functions that the test calls (`transferSource`, `enableSource`,
`createSource`, `updateSource`, `startTask`, `stopTask`,
`convertTaskConfig`, `AddWorker`, `ToFree`) are not part of the sources at
hand; only the test is.  They are modelled from sections 3, 4.2, 4.3, 4.4
and 7 of the specification. -/

/-- Modelled from the spec: the lifecycle stage of a worker, `Offline`,
`Free` or `Bound` (section 4.2); the test names them `scheduler.WorkerFree`
and `scheduler.WorkerBound`.  The orthogonal relay substate is left out. -/
inductive WorkerStage where
  | WorkerOffline
  | WorkerFree
  | WorkerBound
  deriving DecidableEq, Repr

/-- Modelled from the spec: a worker record (section 3): network address,
lifecycle stage and, optionally, the name of the source it is bound to. -/
structure Worker where
  address : String
  stage : WorkerStage
  source : Option String
  deriving DecidableEq, Repr

/-- Modelled from the spec: the desired stage of a subtask (section 3),
`pb.Stage_Running` and `pb.Stage_Stopped` in the test. -/
inductive Stage where
  | Running
  | Paused
  | Stopped
  deriving DecidableEq, Repr

/-- Modelled from the spec: the source as requests carry it
(`openapi.Source` in the test, lines 52-60); `Password` is the secret field
and may be omitted. -/
structure Source where
  SourceName : String
  Enable : Bool
  EnableGtid : Bool
  Host : String
  Password : Option String
  Port : Nat
  User : String
  deriving DecidableEq, Repr

/-- Modelled from the spec: connection parameters of a stored source
configuration (`config.From` in the test, lines 240 and 258). -/
structure DBConfig where
  Host : String
  Port : Nat
  User : String
  Password : String
  deriving DecidableEq, Repr

/-- Modelled from the spec: the stored configuration of a source (section 3),
what `GetSourceCfgByID` returns in the test. -/
structure SourceConfig where
  SourceID : String
  Enable : Bool
  EnableGTID : Bool
  From : DBConfig
  deriving DecidableEq, Repr

/-- Modelled from the spec: a task (section 3): a named job that references
sources by name; `Security` is the transport security field that the file
form cannot carry (section 4.4). -/
structure Task where
  Name : String
  TaskMode : String
  Sources : List String
  Security : Option String
  deriving DecidableEq, Repr

/-- Modelled from the spec: the structured content of the file form of a
task (section 4.4), a task without the transport security field. -/
structure TaskConfig where
  Name : String
  TaskMode : String
  Sources : List String
  deriving DecidableEq, Repr

/-- Modelled from the spec: the serialisation of the file form, which is not
part of the sources at hand.  `marshal` is `TaskConfig.String()`, `unmarshal`
reads a file, and `lossless` is the statement of section 4.4 that the file
form is a lossless representation. -/
structure TaskCodec (φ : Type) where
  marshal : TaskConfig → φ
  unmarshal : φ → Option TaskConfig
  lossless : ∀ c, unmarshal (marshal c) = some c

/-- Modelled from the spec: the request of `convertTaskConfig` in the test
(lines 409 and 417-419), a task or the text of a file. -/
structure ConverterTaskRequest (φ : Type) where
  Task : Option Task
  TaskConfigFile : Option φ

/-- Modelled from the spec: the errors of section 7 that the modelled
operations return; `ErrWorkerNoStart` is "no free worker" and
`ErrMasterStartTask` is "cannot start", as the test names them. -/
inductive Error where
  | ErrWorkerNoStart
  | ErrMasterStartTask
  | ErrWorkerExists
  | ErrWorkerNotFound
  | ErrWorkerNotFree
  | ErrWorkerNotBound
  | ErrSourceExists
  | ErrSourceNotFound
  | ErrConvertTask
  deriving DecidableEq, Repr

/-- Modelled from the spec: the state of the scheduler (sections 3 and 6):
the workers by name, with the order in which they were added; the index
from a source to the worker it is bound to; the stored source
configurations; the desired stage of each (task, source) pair. -/
structure Scheduler where
  workerNames : List String
  workers : String → Option Worker
  bounds : String → Option String
  sourceCfgs : String → Option SourceConfig
  expectSubTaskStages : String × String → Option Stage

/-- Modelled from the spec: the scheduler of a server that was just set up
(`setupTestServer` in the test): no worker, no source, no task. -/
def emptyScheduler : Scheduler :=
  ⟨[], fun _ => none, fun _ => none, fun _ => none, fun _ => none⟩

/-- Modelled from the spec: the state that an operation leaves behind.  A
failing operation mutates no state (section 7, precondition errors). -/
def stateAfter (st : Scheduler) (r : Except Error Scheduler) : Scheduler :=
  match r with
  | .ok st' => st'
  | .error _ => st

/-- Modelled from the spec: `AddWorker(name, address)` (section 4.2) fails if
the name is registered; the new worker is `Offline`. -/
def AddWorker (st : Scheduler) (name address : String) : Except Error Scheduler :=
  match st.workers name with
  | some _ => .error Error.ErrWorkerExists
  | none =>
    .ok { st with
      workerNames := st.workerNames ++ [name]
      workers := Function.update st.workers name
        (some ⟨address, WorkerStage.WorkerOffline, none⟩) }

/-- Modelled from the spec: `ToFree` of the test (lines 180 and 192), the
first heartbeat of section 4.2 after which an `Offline` worker is `Free`. -/
def ToFree (st : Scheduler) (name : String) : Except Error Scheduler :=
  match st.workers name with
  | none => .error Error.ErrWorkerNotFound
  | some w =>
    if w.stage = WorkerStage.WorkerOffline then
      .ok { st with
        workers := Function.update st.workers name
          (some { w with stage := WorkerStage.WorkerFree }) }
    else .error Error.ErrWorkerNotFree

/-- Modelled from the spec: `Bind(name, sourceName)` (section 4.2) fails
unless the current stage is `Free`; on success the stage is `Bound`, the
source reference of the worker is set and the index records the binding. -/
def Bind (st : Scheduler) (name source : String) : Except Error Scheduler :=
  match st.workers name with
  | none => .error Error.ErrWorkerNotFound
  | some w =>
    if w.stage = WorkerStage.WorkerFree then
      .ok { st with
        workers := Function.update st.workers name
          (some { w with stage := WorkerStage.WorkerBound, source := some source })
        bounds := Function.update st.bounds source (some name) }
    else .error Error.ErrWorkerNotFree

/-- Modelled from the spec: `Unbind(name)` (section 4.2) is valid from
`Bound`; it clears the source reference, the stage returns to `Free`, and
the index forgets the binding of that source. -/
def Unbind (st : Scheduler) (name : String) : Except Error Scheduler :=
  match st.workers name with
  | none => .error Error.ErrWorkerNotFound
  | some w =>
    if w.stage = WorkerStage.WorkerBound then
      .ok { st with
        workers := Function.update st.workers name
          (some { w with stage := WorkerStage.WorkerFree, source := none })
        bounds :=
          match w.source with
          | some s => Function.update st.bounds s none
          | none => st.bounds }
    else .error Error.ErrWorkerNotBound

/-- Modelled from the spec: `Transfer(sourceName, targetWorkerName)`
(section 4.3): the target must be `Free`; the source is unbound from its
current worker, if any, and bound to the target; a failure of any step fails
the whole operation. -/
def transferSource (st : Scheduler) (source target : String) : Except Error Scheduler :=
  match st.workers target with
  | none => .error Error.ErrWorkerNotFound
  | some t =>
    if t.stage = WorkerStage.WorkerFree then
      match st.bounds source with
      | some old =>
        match Unbind st old with
        | .ok st1 => Bind st1 target source
        | .error e => .error e
      | none => Bind st target source
    else .error Error.ErrWorkerNotFree

/-- Modelled from the spec: whether the worker of that name is `Free`. -/
def isFree (st : Scheduler) (name : String) : Bool :=
  match st.workers name with
  | some w => decide (w.stage = WorkerStage.WorkerFree)
  | none => false

/-- Modelled from the spec: the deterministic choice of a `Free` worker
(section 4.3): the first one in the order in which workers were added. -/
def firstFree (st : Scheduler) : Option String :=
  st.workerNames.find? (isFree st)

/-- Modelled from the spec: the enabled flag of a stored source becomes
`flag`; a source that is not stored has no flag. -/
def setEnable (st : Scheduler) (source : String) (flag : Bool) : Scheduler :=
  match st.sourceCfgs source with
  | some c =>
    { st with sourceCfgs := Function.update st.sourceCfgs source (some { c with Enable := flag }) }
  | none => st

/-- Modelled from the spec: `Enable(sourceName, optionalWorkerName)`
(section 4.3).  A named worker gets the source as `Transfer` gives it, which
fails if that worker is not `Free`.  Without a name, a source that is bound
stays on its worker: in the test at lines 508-528 the only worker is `Bound`
to the source and enabling succeeds.  A source that is not bound gets a
`Free` worker, and if none is `Free` the call fails with "no free worker"
(`ErrWorkerNoStart` in the test, line 174).  On success the source is
enabled. -/
def enableSource (st : Scheduler) (source : String) (worker : Option String) :
    Except Error Scheduler :=
  match worker with
  | some w =>
    match transferSource st source w with
    | .ok st1 => .ok (setEnable st1 source true)
    | .error e => .error e
  | none =>
    match st.bounds source with
    | some _ => .ok (setEnable st source true)
    | none =>
      match firstFree st with
      | none => .error Error.ErrWorkerNoStart
      | some w =>
        match Bind st w source with
        | .ok st1 => .ok (setEnable st1 source true)
        | .error e => .error e

/-- Modelled from the spec: the stored configuration made from a request and
the password to store. -/
def toSourceConfig (req : Source) (password : String) : SourceConfig :=
  ⟨req.SourceName, req.Enable, req.EnableGtid, ⟨req.Host, req.Port, req.User, password⟩⟩

/-- Modelled from the spec: "create source" (section 3) fails on a duplicate
name (section 7, conflict errors) and stores the configuration; a request
without password stores the empty string, as the test says at lines 231-240.
Binding to a worker named in the request is left out. -/
def createSource (st : Scheduler) (req : Source) : Except Error Scheduler :=
  match st.sourceCfgs req.SourceName with
  | some _ => .error Error.ErrSourceExists
  | none =>
    .ok { st with
      sourceCfgs := Function.update st.sourceCfgs req.SourceName
        (some (toSourceConfig req (req.Password.getD ""))) }

/-- Modelled from the spec: "update source" (section 3) is a partial merge:
the fields of the request replace the stored ones, and the secret field, when
omitted, retains the stored value. -/
def updateSource (st : Scheduler) (name : String) (req : Source) : Except Error Scheduler :=
  match st.sourceCfgs name with
  | none => .error Error.ErrSourceNotFound
  | some old =>
    .ok { st with
      sourceCfgs := Function.update st.sourceCfgs name
        (some (toSourceConfig req (req.Password.getD old.From.Password))) }

/-- Modelled from the spec: `GetSourceCfgByID` of the test, a read of the
stored configuration. -/
def GetSourceCfgByID (st : Scheduler) (name : String) : Option SourceConfig :=
  st.sourceCfgs name

/-- Modelled from the spec: whether a source is currently enabled. -/
def sourceEnabled (st : Scheduler) (source : String) : Bool :=
  match st.sourceCfgs source with
  | some c => c.Enable
  | none => false

/-- Modelled from the spec: the precondition of `Start` on one source
(section 4.4): it is currently enabled and bound. -/
def sourceReady (st : Scheduler) (source : String) : Bool :=
  sourceEnabled st source && (st.bounds source).isSome

/-- Modelled from the spec: the desired stage of every (task, source) pair
of the task becomes `stage`; no other pair changes. -/
def setExpectStage (st : Scheduler) (task : Task) (stage : Stage) : Scheduler :=
  { st with
    expectSubTaskStages := fun k =>
      if k.1 = task.Name ∧ k.2 ∈ task.Sources then some stage
      else st.expectSubTaskStages k }

/-- Modelled from the spec: `Start(taskName)` (section 4.4) requires every
referenced source to be enabled and bound, and fails with "cannot start"
(`ErrMasterStartTask` in the test, line 369) otherwise; on success the
desired stage of every (task, source) pair is `Running`.  The task is passed
in place of its name; the optional arguments and the command sent to the
workers are left out. -/
def startTask (st : Scheduler) (task : Task) : Except Error Scheduler :=
  if task.Sources.all (sourceReady st) then .ok (setExpectStage st task Stage.Running)
  else .error Error.ErrMasterStartTask

/-- Modelled from the spec: `Stop(taskName)` (section 4.4) sets the desired
stage of every (task, source) pair to `Stopped` and does not require the
sources to be enabled. -/
def stopTask (st : Scheduler) (task : Task) : Except Error Scheduler :=
  .ok (setExpectStage st task Stage.Stopped)

/-- Modelled from the spec: `GetExpectSubTaskStage` of the test, a read of
the desired stage of a (task, source) pair. -/
def GetExpectSubTaskStage (st : Scheduler) (task source : String) : Option Stage :=
  st.expectSubTaskStages (task, source)

/-- Modelled from the spec: a task to the content of its file form; the
transport security field is not representable (section 4.4). -/
def TaskToTaskConfig (t : Task) : TaskConfig :=
  ⟨t.Name, t.TaskMode, t.Sources⟩

/-- Modelled from the spec: the content of a file form to a task; the
transport security field is absent. -/
def TaskConfigToTask (c : TaskConfig) : Task :=
  ⟨c.Name, c.TaskMode, c.Sources, none⟩

/-- Modelled from the spec: `ConvertConfig` (section 4.4),
`convertTaskConfig` in the test: given a task it returns the task and its
file form; given the text of a file it returns the task read from it and the
file form. -/
def convertTaskConfig {φ : Type} (codec : TaskCodec φ) (req : ConverterTaskRequest φ) :
    Except Error (Task × TaskConfig) :=
  match req.Task, req.TaskConfigFile with
  | some t, _ => .ok (t, TaskToTaskConfig t)
  | none, some f =>
    match codec.unmarshal f with
    | some c => .ok (TaskConfigToTask c, c)
    | none => .error Error.ErrConvertTask
  | none, none => .error Error.ErrConvertTask

/-! ## Concrete schedulers, sources and tasks -/

/-- The source of the test (lines 52-60), with a password. -/
def testSource : Source :=
  ⟨"mysql-01", true, false, "127.0.0.1", some "123456", 3306, "root"⟩

/-- A task that references the source of the test. -/
def testTask : Task :=
  ⟨"test", "all", ["mysql-01"], none⟩

/-- The state after running an operation from a state. -/
def andThen (st : Scheduler) (op : Scheduler → Except Error Scheduler) : Scheduler :=
  stateAfter st (op st)

/-- A scheduler with the stored test source, disabled, and one `Free`
worker, set up as the test does at lines 176-180. -/
def oneFreeWorker : Scheduler :=
  andThen
    (andThen
      (andThen emptyScheduler (fun st => createSource st { testSource with Enable := false }))
      (fun st => AddWorker st "worker1" "172.16.10.72:8262"))
    (fun st => ToFree st "worker1")

/-- A scheduler with the stored test source and no worker, as in the test at
line 174. -/
def noWorker : Scheduler :=
  andThen emptyScheduler (fun st => createSource st testSource)

/-- A scheduler with the stored test source bound to its only worker, set up
as the test does at lines 176-182; no worker is `Free`. -/
def oneBoundWorker : Scheduler :=
  andThen
    (andThen
      (andThen noWorker (fun st => AddWorker st "worker1" "172.16.10.72:8262"))
      (fun st => ToFree st "worker1"))
    (fun st => transferSource st "mysql-01" "worker1")

/-- A scheduler with two workers, none of them `Free`: the first is `Bound`
to another source, the second is still `Offline`; the test source is stored
and bound to no worker. -/
def noFreeWorker : Scheduler :=
  andThen
    (andThen
      (andThen
        (andThen noWorker (fun st => AddWorker st "worker1" "172.16.10.72:8262"))
        (fun st => ToFree st "worker1"))
      (fun st => transferSource st "mysql-02" "worker1"))
    (fun st => AddWorker st "worker2" "172.16.10.72:8263")

/-- The serialisation that writes a file form as itself. -/
def plainCodec : TaskCodec TaskConfig :=
  ⟨fun c => c, fun f => some f, fun _ => rfl⟩

end Master

namespace Retry

/-! ## The loop, pass by pass -/

theorem invocations_append {ρ ε : Type} (a b : List (Event ρ ε)) :
    invocations (a ++ b) = invocations a + invocations b := by
  induction a with
  | nil => simp [invocations]
  | cons x xs ih => cases x <;> simp [invocations, ih]; omega

theorem selects_append {ρ ε : Type} (a b : List (Event ρ ε)) :
    selects (a ++ b) = selects a + selects b := by
  induction a with
  | nil => simp [selects]
  | cons x xs ih => cases x <;> simp [selects, ih]; omega

theorem invocations_attemptEvents {ρ ε : Type} (params : Params ε) (env : Env ρ ε) (j : Nat) :
    invocations (attemptEvents params env j) = 1 := by
  unfold attemptEvents
  split
  · simp [invocations]
  · split <;> simp [invocations]

theorem invocations_attemptsTrace {ρ ε : Type} (params : Params ε) (env : Env ρ ε) (k : Nat) :
    invocations (attemptsTrace params env k) = k := by
  induction k with
  | zero => simp [attemptsTrace, invocations]
  | succ k ih => simp [attemptsTrace, invocations_append, ih, invocations_attemptEvents]

theorem selects_attemptEvents_of_retried {ρ ε : Type} (params : Params ε) (env : Env ρ ε)
    (j : Nat) (h : retried params env j = true) :
    selects (attemptEvents params env j) = 1 := by
  unfold retried at h
  unfold attemptEvents
  split
  · rename_i h0; simp [h0] at h
  · rename_i e h0
    simp [h0] at h
    simp [h.1, selects]

theorem selects_attemptsTrace {ρ ε : Type} (params : Params ε) (env : Env ρ ε) (k : Nat)
    (h : ∀ j, j < k → retried params env j = true) :
    selects (attemptsTrace params env k) = k := by
  induction k with
  | zero => simp [attemptsTrace, selects]
  | succ k ih =>
    have h1 := ih (fun j hj => h j (Nat.lt_succ_of_lt hj))
    have h2 := selects_attemptEvents_of_retried params env k (h k (Nat.lt_succ_self k))
    simp [attemptsTrace, selects_append, h1, h2]

theorem stateAt_i {ρ ε : Type} (params : Params ε) (env : Env ρ ε) (k : Nat) :
    (stateAt params env k).i = (k : Int) := by
  cases k <;> simp [stateAt]

theorem stateAt_trace {ρ ε : Type} (params : Params ε) (env : Env ρ ε) (k : Nat) :
    (stateAt params env k).trace = attemptsTrace params env k := by
  cases k <;> simp [stateAt, attemptsTrace]

/-- One pass from the loop head reached after `k` retried attempts. -/
theorem body_stateAt {ρ ε : Type} (params : Params ε) (env : Env ρ ε) (k : Nat)
    (hs : selects (attemptsTrace params env k) = k) :
    body params env (stateAt params env k) =
      if retried params env k = true then Step.next (stateAt params env (k + 1))
      else Step.done (stopAt params env k) := by
  have hinv := invocations_attemptsTrace params env k
  unfold body
  simp only [stateAt_i, stateAt_trace, hinv]
  unfold retried stopAt
  cases hop : (env.operateFn k).2 with
  | none => simp [attemptsTrace, attemptEvents, hop]
  | some e =>
    by_cases hr : params.IsRetryableFn (k : Int) e = true
    · by_cases hc : env.ctxDone k = true
      · simp [hr, hc, hs, selects_append, selects, attemptsTrace, attemptEvents, hop, backoff]
      · simp [hr, hc, hs, selects_append, selects, attemptsTrace, attemptEvents, hop, backoff,
          stateAt]
    · simp [hr, attemptsTrace, attemptEvents, hop]

/-- After `k` retried attempts the loop is at `stateAt k`. -/
theorem applyLoop_retried {ρ ε : Type} (params : Params ε) (env : Env ρ ε) (k : Nat)
    (hk : (k : Int) ≤ params.RetryCount)
    (h : ∀ j, j < k → retried params env j = true) (fuel : Nat) :
    applyLoop params env (fuel + k) (stateAt params env 0) =
      applyLoop params env fuel (stateAt params env k) := by
  induction k generalizing fuel with
  | zero => rfl
  | succ k ih =>
    have hk' : (k : Int) < params.RetryCount := by push_cast at hk; omega
    have hprev : ∀ j, j < k → retried params env j = true :=
      fun j hj => h j (Nat.lt_succ_of_lt hj)
    have e1 : fuel + (k + 1) = (fuel + 1) + k := by omega
    rw [e1, ih (le_of_lt hk') hprev (fuel + 1)]
    have hb := body_stateAt params env k (selects_attemptsTrace params env k hprev)
    rw [if_pos (h k (Nat.lt_succ_self k))] at hb
    simp only [applyLoop, stateAt_i, hk', if_true, hb]

/-- The run that stops in pass `k`: attempts `0..k-1` are retried, attempt
`k` succeeds, fails for good or is cancelled in its wait. -/
theorem Apply_stop {ρ ε : Type} (params : Params ε) (env : Env ρ ε) (k : Nat)
    (hk : (k : Int) < params.RetryCount)
    (h : ∀ j, j < k → retried params env j = true)
    (hstop : retried params env k = false) :
    FiniteRetryStrategy.Apply params env = some (stopAt params env k) := by
  unfold FiniteRetryStrategy.Apply
  have hf : params.RetryCount.toNat = (params.RetryCount.toNat - (k + 1) + 1) + k := by omega
  have h0 : (⟨none, 0, none, []⟩ : Run ρ ε) = stateAt params env 0 := rfl
  rw [h0, hf, applyLoop_retried params env k (le_of_lt hk) h]
  have hb := body_stateAt params env k (selects_attemptsTrace params env k h)
  rw [hstop] at hb
  simp only [applyLoop, stateAt_i, hk, if_true, hb]
  simp

/-- The run that uses up the budget: every attempt is retried. -/
theorem Apply_exhaust {ρ ε : Type} (params : Params ε) (env : Env ρ ε)
    (h : ∀ j : Nat, (j : Int) < params.RetryCount → retried params env j = true) :
    FiniteRetryStrategy.Apply params env =
      some (stateAt params env params.RetryCount.toNat) := by
  unfold FiniteRetryStrategy.Apply
  have h0 : (⟨none, 0, none, []⟩ : Run ρ ε) = stateAt params env 0 := rfl
  have hle : ((params.RetryCount.toNat : Nat) : Int) ≤ params.RetryCount ∨
      params.RetryCount < 0 := by omega
  have hnot : ¬ ((params.RetryCount.toNat : Nat) : Int) < params.RetryCount := by omega
  rcases hle with hle | hneg
  · have e := applyLoop_retried params env params.RetryCount.toNat hle
      (fun j hj => h j (by omega)) 0
    simp only [Nat.zero_add] at e
    rw [h0, e]
    simp [applyLoop, stateAt_i, hnot]
  · have hz : params.RetryCount.toNat = 0 := by omega
    rw [hz]
    simp [applyLoop, stateAt]
    omega

/-- Every environment either stops some pass `k` below the budget or retries
every attempt. -/
theorem stop_or_exhaust {ρ ε : Type} (params : Params ε) (env : Env ρ ε) :
    (∃ k : Nat, (k : Int) < params.RetryCount ∧
        (∀ j, j < k → retried params env j = true) ∧ retried params env k = false) ∨
      (∀ j : Nat, (j : Int) < params.RetryCount → retried params env j = true) := by
  by_cases hall : ∀ j : Nat, (j : Int) < params.RetryCount → retried params env j = true
  · exact Or.inr hall
  · left
    push_neg at hall
    have hex : ∃ j : Nat, (j : Int) < params.RetryCount ∧ retried params env j = false := by
      obtain ⟨j, hj, hr⟩ := hall
      exact ⟨j, hj, by simpa using hr⟩
    classical
    refine ⟨Nat.find hex, (Nat.find_spec hex).1, ?_, (Nat.find_spec hex).2⟩
    intro j hj
    have hmin := Nat.find_min hex hj
    have hlt : (j : Int) < params.RetryCount := by
      have := (Nat.find_spec hex).1
      omega
    by_contra hne
    exact hmin ⟨hlt, by simpa using hne⟩

/-! ## Reading the trace of a run -/

theorem retried_iff {ρ ε : Type} (params : Params ε) (env : Env ρ ε) (j : Nat) :
    retried params env j = true ↔ FailsRetryably params env j ∧ env.ctxDone j = false := by
  unfold retried FailsRetryably
  cases h : (env.operateFn j).2 with
  | none => simp
  | some e => simp

theorem mem_attemptsTrace {ρ ε : Type} (params : Params ε) (env : Env ρ ε) (m : Nat)
    (x : Event ρ ε) :
    x ∈ attemptsTrace params env m ↔ ∃ j, j < m ∧ x ∈ attemptEvents params env j := by
  induction m with
  | zero => simp [attemptsTrace]
  | succ m ih =>
    simp only [attemptsTrace, List.mem_append, ih]
    constructor
    · rintro (⟨j, hj, hx⟩ | hx)
      · exact ⟨j, Nat.lt_succ_of_lt hj, hx⟩
      · exact ⟨m, Nat.lt_succ_self m, hx⟩
    · rintro ⟨j, hj, hx⟩
      rcases Nat.lt_succ_iff_lt_or_eq.mp hj with h | h
      · exact Or.inl ⟨j, h, hx⟩
      · exact Or.inr (h ▸ hx)

theorem wait_mem_attemptEvents {ρ ε : Type} (params : Params ε) (env : Env ρ ε) (j : Nat)
    (i d : Int) (b : Bool) (h : Event.wait i d b ∈ attemptEvents params env j) :
    i = (j : Int) ∧ FailsRetryably params env j ∧ d = backoff params j ∧
      b = !env.ctxDone j := by
  unfold attemptEvents at h
  unfold FailsRetryably
  cases hop : (env.operateFn j).2 with
  | none => simp [hop] at h
  | some e =>
    by_cases hr : params.IsRetryableFn (j : Int) e = true
    · simp [hop, hr] at h
      exact ⟨h.1, ⟨e, rfl, hr⟩, h.2.1, h.2.2⟩
    · simp [hop, hr] at h

/-- A wait recorded by a run follows a failed retryable attempt of the run. -/
theorem wait_mem_attemptsTrace {ρ ε : Type} (params : Params ε) (env : Env ρ ε) (m : Nat)
    (i d : Int) (b : Bool) (h : Event.wait i d b ∈ attemptsTrace params env m) :
    ∃ j, j < m ∧ i = (j : Int) ∧ FailsRetryably params env j ∧ d = backoff params j ∧
      b = !env.ctxDone j := by
  obtain ⟨j, hj, hx⟩ := (mem_attemptsTrace params env m _).mp h
  exact ⟨j, hj, wait_mem_attemptEvents params env j i d b hx⟩

theorem selects_attemptEvents_of_not_fails {ρ ε : Type} (params : Params ε) (env : Env ρ ε)
    (j : Nat) (h : ¬ FailsRetryably params env j) :
    selects (attemptEvents params env j) = 0 := by
  unfold FailsRetryably at h
  unfold attemptEvents
  cases hop : (env.operateFn j).2 with
  | none => simp [selects]
  | some e =>
    by_cases hr : params.IsRetryableFn (j : Int) e = true
    · exact absurd ⟨e, hop, hr⟩ h
    · simp [hr, selects]

theorem attemptEvents_ne_nil {ρ ε : Type} (params : Params ε) (env : Env ρ ε) (j : Nat) :
    attemptEvents params env j ≠ [] := by
  unfold attemptEvents
  split
  · simp
  · split <;> simp

theorem exitOf_attemptsTrace_succ {ρ ε : Type} (params : Params ε) (env : Env ρ ε) (k : Nat) :
    exitOf (attemptsTrace params env (k + 1)) = exitOf (attemptEvents params env k) := by
  unfold exitOf
  rw [attemptsTrace, List.getLast?_append_of_ne_nil _ (attemptEvents_ne_nil params env k)]

/-- How the `k`-th pass ends, read off its events. -/
theorem exitOf_attemptEvents {ρ ε : Type} (params : Params ε) (env : Env ρ ε) (k : Nat) :
    exitOf (attemptEvents params env k) =
      match (env.operateFn k).2 with
      | none => Exit.success
      | some e =>
        if params.IsRetryableFn (k : Int) e = true then
          (if env.ctxDone k = true then Exit.cancelled else Exit.budget)
        else Exit.notRetryable := by
  unfold attemptEvents
  cases hop : (env.operateFn k).2 with
  | none => simp [exitOf]
  | some e =>
    by_cases hr : params.IsRetryableFn (k : Int) e = true
    · by_cases hc : env.ctxDone k = true <;> simp [exitOf, hr, hc]
    · simp [exitOf, hr]

theorem exitOf_attemptEvents_budget {ρ ε : Type} (params : Params ε) (env : Env ρ ε)
    (k : Nat) :
    exitOf (attemptEvents params env k) = Exit.budget ↔ retried params env k = true := by
  rw [exitOf_attemptEvents]
  unfold retried
  cases hop : (env.operateFn k).2 with
  | none => simp
  | some e =>
    by_cases hr : params.IsRetryableFn (k : Int) e = true
    · by_cases hc : env.ctxDone k = true <;> simp [hr, hc]
    · simp [hr]

/-- Every call of `Apply` returns, and in one of two ways. -/
theorem Apply_cases {ρ ε : Type} (params : Params ε) (env : Env ρ ε) :
    (∃ k : Nat, (k : Int) < params.RetryCount ∧
        (∀ j, j < k → retried params env j = true) ∧ retried params env k = false ∧
        FiniteRetryStrategy.Apply params env = some (stopAt params env k)) ∨
      ((∀ j : Nat, (j : Int) < params.RetryCount → retried params env j = true) ∧
        FiniteRetryStrategy.Apply params env =
          some (stateAt params env params.RetryCount.toNat)) := by
  rcases stop_or_exhaust params env with ⟨k, hk, hpre, hstop⟩ | hall
  · exact Or.inl ⟨k, hk, hpre, hstop, Apply_stop params env k hk hpre hstop⟩
  · exact Or.inr ⟨hall, Apply_exhaust params env hall⟩

/-- The trace of a run is the trace of its passes. -/
theorem Apply_trace {ρ ε : Type} (params : Params ε) (env : Env ρ ε) :
    ∃ run m, FiniteRetryStrategy.Apply params env = some run ∧
      run.trace = attemptsTrace params env m := by
  rcases Apply_cases params env with ⟨k, _, _, _, h⟩ | ⟨_, h⟩
  · exact ⟨_, k + 1, h, rfl⟩
  · exact ⟨_, _, h, stateAt_trace params env _⟩

theorem wrapInt64_of_fits (x : Int) (h : -(2 ^ 63) ≤ x ∧ x < 2 ^ 63) : wrapInt64 x = x := by
  unfold wrapInt64
  omega

theorem elapsedWaits_append {ρ ε : Type} (a b : List (Event ρ ε)) :
    elapsedWaits (a ++ b) = elapsedWaits a ++ elapsedWaits b := by
  induction a with
  | nil => simp [elapsedWaits]
  | cons x xs ih =>
    cases x with
    | invoke i r e => simp [elapsedWaits, ih]
    | consult i e b => simp [elapsedWaits, ih]
    | wait i d b => cases b <;> simp [elapsedWaits, ih]

theorem attemptEvents_of_retried {ρ ε : Type} (params : Params ε) (env : Env ρ ε) (j : Nat)
    (h : retried params env j = true) :
    ∃ e, attemptEvents params env j =
      [Event.invoke j (env.operateFn j).1 (some e), Event.consult j e true,
        Event.wait j (backoff params j) true] := by
  unfold retried at h
  unfold attemptEvents
  cases hop : (env.operateFn j).2 with
  | none => simp [hop] at h
  | some e =>
    simp [hop] at h
    exact ⟨e, by simp [h.1, h.2]⟩

theorem elapsedWaits_attemptsTrace {ρ ε : Type} (params : Params ε) (env : Env ρ ε) (k : Nat)
    (h : ∀ j, j < k → retried params env j = true) :
    elapsedWaits (attemptsTrace params env k) =
      (List.range k).map (fun (j : Nat) => backoff params (j : Int)) := by
  induction k with
  | zero => simp [attemptsTrace, elapsedWaits]
  | succ k ih =>
    obtain ⟨e, he⟩ := attemptEvents_of_retried params env k (h k (Nat.lt_succ_self k))
    rw [attemptsTrace, elapsedWaits_append, ih (fun j hj => h j (Nat.lt_succ_of_lt hj)), he,
      List.range_succ, List.map_append]
    simp [elapsedWaits]

theorem wait_mem_of_retried {ρ ε : Type} (params : Params ε) (env : Env ρ ε) (m j : Nat)
    (hj : j < m) (h : retried params env j = true) :
    Event.wait (j : Int) (backoff params j) true ∈ attemptsTrace params env m := by
  obtain ⟨e, he⟩ := attemptEvents_of_retried params env j h
  exact (mem_attemptsTrace params env m _).mpr ⟨j, hj, by simp [he]⟩

theorem attemptsTrace_add {ρ ε : Type} (params : Params ε) (env : Env ρ ε) (len a : Nat) :
    attemptsTrace params env (a + len) =
      attemptsTrace params env a ++ attemptsFrom params env a len := by
  induction len generalizing a with
  | zero => simp [attemptsFrom]
  | succ len ih =>
    have e1 : a + (len + 1) = (a + 1) + len := by omega
    rw [e1, ih (a + 1), attemptsTrace, attemptsFrom, List.append_assoc]

/-- In a stretch of retried attempts, the wait directly before attempt `i`
is the one requested after attempt `i - 1`. -/
theorem waitBeforeAux_attemptsFrom {ρ ε : Type} (params : Params ε) (env : Env ρ ε)
    (len a i : Nat) (last : Option Int)
    (h : ∀ j, a ≤ j → j < a + len → retried params env j = true)
    (hai : a ≤ i) (hi : i < a + len) :
    waitBeforeAux (i : Int) last (attemptsFrom params env a len) =
      if i = a then last else some (backoff params (((i - 1 : Nat) : Int))) := by
  induction len generalizing a last with
  | zero => omega
  | succ len ih =>
    obtain ⟨e, he⟩ := attemptEvents_of_retried params env a (h a (le_refl a) (by omega))
    rw [attemptsFrom, he]
    by_cases hia : i = a
    · subst hia
      simp [waitBeforeAux]
    · have hne : ¬ ((a : Int) = (i : Int)) := by
        intro hc
        exact hia (by exact_mod_cast hc.symm)
      have hrest := ih (a + 1) (some (backoff params a))
        (fun j h1 h2 => h j (by omega) (by omega)) (by omega) (by omega)
      simp only [List.cons_append, List.nil_append, waitBeforeAux, if_neg hne, if_neg hia,
        List.append_eq]
      rw [hrest]
      by_cases hi1 : i = a + 1
      · subst hi1
        simp
      · simp [hi1]

theorem elapsedWaits_attemptEvents_of_not_retried {ρ ε : Type} (params : Params ε)
    (env : Env ρ ε) (k : Nat) (h : retried params env k = false) :
    elapsedWaits (attemptEvents params env k) = [] := by
  unfold retried at h
  unfold attemptEvents
  cases hop : (env.operateFn k).2 with
  | none => simp [elapsedWaits]
  | some e =>
    simp only [hop] at h
    by_cases hr : params.IsRetryableFn (k : Int) e = true
    · have hc : env.ctxDone k = true := by simpa [hr] using h
      simp [hr, hc, elapsedWaits]
    · simp [hr, elapsedWaits]

/-! ## The contract of `Apply` -/

/-- C1: `Apply` returns immediately on success.  If attempts `0..k-1` fail
with errors the predicate accepts, none of the waits after them is cancelled
and attempt `k < RetryCount` succeeds with result `r`, then `Apply` returns
`(r, k, nil)`, has invoked the operation exactly `k + 1` times, and has made
no wait after attempt `k` (the run has exactly the `k` waits that follow the
failed attempts). -/
theorem apply_returns_on_success {ρ ε : Type} (params : Params ε) (env : Env ρ ε)
    (k : Nat) (r : Option ρ)
    (hk : (k : Int) < params.RetryCount)
    (hfail : ∀ j, j < k → FailsRetryably params env j)
    (hwait : ∀ j, j < k → env.ctxDone j = false)
    (hsucc : env.operateFn k = (r, none)) :
    ∃ run, FiniteRetryStrategy.Apply params env = some run ∧
      run.ret = r ∧ run.i = (k : Int) ∧ run.err = none ∧
      invocations run.trace = k + 1 ∧
      (∀ d b, Event.wait (k : Int) d b ∉ run.trace) ∧ selects run.trace = k ∧
      exitOf run.trace = Exit.success := by
  have hpre : ∀ j, j < k → retried params env j = true :=
    fun j hj => (retried_iff params env j).mpr ⟨hfail j hj, hwait j hj⟩
  have hnf : ¬ FailsRetryably params env k := by
    rintro ⟨e, he, _⟩
    simp [hsucc] at he
  have hstop : retried params env k = false := by
    cases hr : retried params env k with
    | false => rfl
    | true => exact absurd ((retried_iff params env k).mp hr).1 hnf
  refine ⟨stopAt params env k, Apply_stop params env k hk hpre hstop, ?_, rfl, ?_, ?_, ?_, ?_,
    ?_⟩
  · simp [stopAt, hsucc]
  · simp [stopAt, hsucc]
  · exact invocations_attemptsTrace params env (k + 1)
  · intro d b hmem
    obtain ⟨j, _, hij, hf, _⟩ := wait_mem_attemptsTrace params env (k + 1) _ d b hmem
    have : j = k := by exact_mod_cast hij.symm
    exact hnf (this ▸ hf)
  · simp [stopAt, attemptsTrace, selects_append, selects_attemptsTrace params env k hpre,
      selects_attemptEvents_of_not_fails params env k hnf]
  · have h2 : (env.operateFn k).2 = none := by rw [hsucc]
    simp only [stopAt]
    rw [exitOf_attemptsTrace_succ, exitOf_attemptEvents, h2]

/-- Witness of C1: budget 3, two retried failures, success at attempt 2. -/
theorem apply_returns_on_success_witness :
    ∃ run, FiniteRetryStrategy.Apply (retryAll 3 5 Stable) (succeedsAt 2) = some run ∧
      run.ret = some 2 ∧ run.i = ((2 : Nat) : Int) ∧ run.err = none ∧
      invocations run.trace = 2 + 1 ∧
      (∀ d b, Event.wait ((2 : Nat) : Int) d b ∉ run.trace) ∧ selects run.trace = 2 ∧
      exitOf run.trace = Exit.success :=
  apply_returns_on_success (retryAll 3 5 Stable) (succeedsAt 2) 2 (some 2) (by decide)
    (fun j hj => ⟨100 + j, by simp only [succeedsAt, if_pos hj], rfl⟩) (fun _ _ => rfl)
    (by decide)

/-- C2: `Apply` stops on a non-retryable error.  If attempt `k < RetryCount`
is reached (attempts `0..k-1` were retried) and returns `(r, e)` with `e`
non-nil and `IsRetryableFn(k, e) = false`, then `Apply` returns that `r` and
that `e` unchanged (with count `k`), makes no wait after attempt `k`, and
the operation is not invoked again: it was invoked `k + 1` times in all. -/
theorem apply_stops_on_non_retryable {ρ ε : Type} (params : Params ε) (env : Env ρ ε)
    (k : Nat) (r : Option ρ) (e : ε)
    (hk : (k : Int) < params.RetryCount)
    (hfail : ∀ j, j < k → FailsRetryably params env j)
    (hwait : ∀ j, j < k → env.ctxDone j = false)
    (hret : env.operateFn k = (r, some e))
    (hno : params.IsRetryableFn (k : Int) e = false) :
    ∃ run, FiniteRetryStrategy.Apply params env = some run ∧
      run.ret = r ∧ run.err = some e ∧ run.i = (k : Int) ∧
      invocations run.trace = k + 1 ∧
      (∀ d b, Event.wait (k : Int) d b ∉ run.trace) ∧ selects run.trace = k ∧
      exitOf run.trace = Exit.notRetryable := by
  have hpre : ∀ j, j < k → retried params env j = true :=
    fun j hj => (retried_iff params env j).mpr ⟨hfail j hj, hwait j hj⟩
  have hnf : ¬ FailsRetryably params env k := by
    rintro ⟨e', he, hr⟩
    simp only [hret, Option.some.injEq] at he
    rw [← he, hno] at hr
    exact Bool.noConfusion hr
  have hstop : retried params env k = false := by
    cases hr : retried params env k with
    | false => rfl
    | true => exact absurd ((retried_iff params env k).mp hr).1 hnf
  refine ⟨stopAt params env k, Apply_stop params env k hk hpre hstop, ?_, ?_, rfl, ?_, ?_, ?_,
    ?_⟩
  · simp [stopAt, hret]
  · simp [stopAt, hret]
  · exact invocations_attemptsTrace params env (k + 1)
  · intro d b hmem
    obtain ⟨j, _, hij, hf, _⟩ := wait_mem_attemptsTrace params env (k + 1) _ d b hmem
    have : j = k := by exact_mod_cast hij.symm
    exact hnf (this ▸ hf)
  · simp [stopAt, attemptsTrace, selects_append, selects_attemptsTrace params env k hpre,
      selects_attemptEvents_of_not_fails params env k hnf]
  · have h2 : (env.operateFn k).2 = some e := by rw [hret]
    simp only [stopAt]
    rw [exitOf_attemptsTrace_succ, exitOf_attemptEvents, h2]
    simp [hno]

/-- Witness of C2: budget 5, one retried failure, error `13` at attempt 1. -/
theorem apply_stops_on_non_retryable_witness :
    ∃ run, FiniteRetryStrategy.Apply (retryUnless13 5 5 LinearIncrease) (fails13At 1) =
        some run ∧
      run.ret = some 1 ∧ run.err = some 13 ∧ run.i = ((1 : Nat) : Int) ∧
      invocations run.trace = 1 + 1 ∧
      (∀ d b, Event.wait ((1 : Nat) : Int) d b ∉ run.trace) ∧ selects run.trace = 1 ∧
      exitOf run.trace = Exit.notRetryable :=
  apply_stops_on_non_retryable (retryUnless13 5 5 LinearIncrease) (fails13At 1) 1 (some 1) 13
    (by decide)
    (fun j hj => ⟨100 + j, by simp only [fails13At, if_pos hj], by simp [retryUnless13]; omega⟩)
    (fun _ _ => rfl) (by decide) (by decide)

/-- C3: when the budget is used up, `Apply` returns the last error itself.
For `RetryCount = n >= 1`, if all `n` attempts fail with retryable errors and
none of the waits is cancelled, the returned error is the error of the
`n`-th attempt (index `n - 1`), it is not nil, and the returned result is the
result of that same attempt; the count is `n` and the run ends because the
loop condition fails. -/
theorem apply_exhausted_returns_last_error {ρ ε : Type} (params : Params ε) (env : Env ρ ε)
    (n : Nat) (hn : 1 ≤ n) (hc : params.RetryCount = (n : Int))
    (hfail : ∀ j, j < n → FailsRetryably params env j)
    (hwait : ∀ j, j < n → env.ctxDone j = false) :
    ∃ run, FiniteRetryStrategy.Apply params env = some run ∧
      run.err = (env.operateFn (n - 1)).2 ∧ run.err ≠ none ∧
      run.ret = (env.operateFn (n - 1)).1 ∧ run.i = (n : Int) ∧
      exitOf run.trace = Exit.budget := by
  have hall : ∀ j : Nat, (j : Int) < params.RetryCount → retried params env j = true := by
    intro j hj
    have hjn : j < n := by rw [hc] at hj; exact_mod_cast hj
    exact (retried_iff params env j).mpr ⟨hfail j hjn, hwait j hjn⟩
  have hto : params.RetryCount.toNat = n := by rw [hc]; simp
  obtain ⟨m, rfl⟩ : ∃ m, n = m + 1 := ⟨n - 1, by omega⟩
  refine ⟨stateAt params env (m + 1), ?_, ?_, ?_, ?_, ?_, ?_⟩
  · rw [Apply_exhaust params env hall, hto]
  · simp [stateAt]
  · obtain ⟨e, he, _⟩ := hfail m (Nat.lt_succ_self m)
    simp [stateAt, he]
  · simp [stateAt]
  · exact stateAt_i params env (m + 1)
  · rw [stateAt_trace, exitOf_attemptsTrace_succ]
    exact (exitOf_attemptEvents_budget params env m).mpr (hall m (by rw [hc]; simp))

/-- Witness of C3: budget 3 and an operation that always fails. -/
theorem apply_exhausted_returns_last_error_witness :
    ∃ run, FiniteRetryStrategy.Apply (retryAll 3 5 Stable) alwaysFails = some run ∧
      run.err = (alwaysFails.operateFn (3 - 1)).2 ∧ run.err ≠ none ∧
      run.ret = (alwaysFails.operateFn (3 - 1)).1 ∧ run.i = ((3 : Nat) : Int) ∧
      exitOf run.trace = Exit.budget :=
  apply_exhausted_returns_last_error (retryAll 3 5 Stable) alwaysFails 3 (by decide) rfl
    (fun j _ => ⟨100 + j, rfl, rfl⟩) (fun _ _ => rfl)

/-- C4: cancellation during a retry wait keeps the partial information.  If
attempt `k` is reached and returns `(r, e)` with `e` retryable, and the
context is done before the wait that follows attempt `k` elapses, `Apply`
returns that result `r` and that error `e` (with count `k`), and makes no
further attempt: the operation was invoked `k + 1` times in all and the run
ends in the cancelled wait. -/
theorem apply_cancelled_returns_last_attempt {ρ ε : Type} (params : Params ε)
    (env : Env ρ ε) (k : Nat) (r : Option ρ) (e : ε)
    (hk : (k : Int) < params.RetryCount)
    (hfail : ∀ j, j < k → FailsRetryably params env j)
    (hwait : ∀ j, j < k → env.ctxDone j = false)
    (hret : env.operateFn k = (r, some e))
    (hyes : params.IsRetryableFn (k : Int) e = true)
    (hdone : env.ctxDone k = true) :
    ∃ run, FiniteRetryStrategy.Apply params env = some run ∧
      run.ret = r ∧ run.err = some e ∧ run.i = (k : Int) ∧
      invocations run.trace = k + 1 ∧ exitOf run.trace = Exit.cancelled := by
  have hpre : ∀ j, j < k → retried params env j = true :=
    fun j hj => (retried_iff params env j).mpr ⟨hfail j hj, hwait j hj⟩
  have hstop : retried params env k = false := by
    cases hr : retried params env k with
    | false => rfl
    | true =>
      have := ((retried_iff params env k).mp hr).2
      rw [hdone] at this
      exact Bool.noConfusion this
  refine ⟨stopAt params env k, Apply_stop params env k hk hpre hstop, ?_, ?_, rfl, ?_, ?_⟩
  · simp [stopAt, hret]
  · simp [stopAt, hret]
  · exact invocations_attemptsTrace params env (k + 1)
  · have h2 : (env.operateFn k).2 = some e := by rw [hret]
    simp only [stopAt]
    rw [exitOf_attemptsTrace_succ, exitOf_attemptEvents, h2]
    simp [hyes, hdone]

/-- Witness of C4: budget 4, the context is done during the wait after
attempt 1. -/
theorem apply_cancelled_returns_last_attempt_witness :
    ∃ run, FiniteRetryStrategy.Apply (retryAll 4 5 Stable) (cancelledAt 1) = some run ∧
      run.ret = some 1 ∧ run.err = some 101 ∧ run.i = ((1 : Nat) : Int) ∧
      invocations run.trace = 1 + 1 ∧ exitOf run.trace = Exit.cancelled :=
  apply_cancelled_returns_last_attempt (retryAll 4 5 Stable) (cancelledAt 1) 1 (some 1) 101
    (by decide) (fun j _ => ⟨100 + j, rfl, rfl⟩)
    (fun j hj => by simp [cancelledAt]; omega) (by decide) rfl (by decide)

/-- C5: for `RetryCount = n`, an operation that always fails with a
retryable error and a context that is never done, `Apply` invokes the
operation exactly `n` times (exactly 3 times for `RetryCount = 3`).  This
holds for every natural number `n`, so for every `n >= 1`. -/
theorem apply_invokes_retry_count_times {ρ ε : Type} (params : Params ε) (env : Env ρ ε)
    (n : Nat) (hc : params.RetryCount = (n : Int))
    (hfail : ∀ j, FailsRetryably params env j)
    (hwait : ∀ j, env.ctxDone j = false) :
    ∃ run, FiniteRetryStrategy.Apply params env = some run ∧
      invocations run.trace = n := by
  have hall : ∀ j : Nat, (j : Int) < params.RetryCount → retried params env j = true :=
    fun j _ => (retried_iff params env j).mpr ⟨hfail j, hwait j⟩
  have hto : params.RetryCount.toNat = n := by rw [hc]; simp
  refine ⟨stateAt params env n, ?_, ?_⟩
  · rw [Apply_exhaust params env hall, hto]
  · rw [stateAt_trace]
    exact invocations_attemptsTrace params env n

/-- Witness of C5: `RetryCount = 3` gives exactly 3 invocations. -/
theorem apply_invokes_retry_count_times_witness :
    ∃ run, FiniteRetryStrategy.Apply (retryAll 3 5 Stable) alwaysFails = some run ∧
      invocations run.trace = 3 :=
  apply_invokes_retry_count_times (retryAll 3 5 Stable) alwaysFails 3 rfl
    (fun j => ⟨100 + j, rfl, rfl⟩) (fun _ => rfl)

/-- C6, as the claim states it, fails: with `RetryCount = 3`,
`FirstRetryDuration = 7`, `Stable` and an operation that always fails with a
retryable error, three waits of 7 elapse, not two, and their total is 21, not
`2 * 7`. -/
theorem apply_waits_counterexample :
    (FiniteRetryStrategy.Apply (retryAll 3 7 Stable) alwaysFails).map
        (fun run => elapsedWaits run.trace) = some [7, 7, 7] ∧
      ([7, 7, 7] : List Int).length ≠ 3 - 1 ∧ ([7, 7, 7] : List Int).sum ≠ 2 * 7 := by
  decide

/-- C6, amended: a wait follows every failed retryable attempt, the last one
included.  For `RetryCount = n`, an operation that always fails with a
retryable error and a context that is never done, exactly `n` waits elapse,
one of them after the last attempt `n - 1`; under `Stable` each of them is
`FirstRetryDuration` and their total is `n * FirstRetryDuration` (3 waits
with total `3 * d` for `RetryCount = 3`). -/
theorem apply_waits_after_every_failed_attempt {ρ ε : Type} (params : Params ε)
    (env : Env ρ ε) (n : Nat) (hc : params.RetryCount = (n : Int))
    (hfail : ∀ j, FailsRetryably params env j)
    (hwait : ∀ j, env.ctxDone j = false) :
    ∃ run, FiniteRetryStrategy.Apply params env = some run ∧
      (elapsedWaits run.trace).length = n ∧
      (∀ m : Nat, n = m + 1 → ∃ d, Event.wait (m : Int) d true ∈ run.trace) ∧
      (params.BackoffStrategy = Stable →
        elapsedWaits run.trace = List.replicate n params.FirstRetryDuration ∧
        (elapsedWaits run.trace).sum = (n : Int) * params.FirstRetryDuration) := by
  have hret : ∀ j : Nat, retried params env j = true :=
    fun j => (retried_iff params env j).mpr ⟨hfail j, hwait j⟩
  have hall : ∀ j : Nat, (j : Int) < params.RetryCount → retried params env j = true :=
    fun j _ => hret j
  have hto : params.RetryCount.toNat = n := by rw [hc]; simp
  have hw := elapsedWaits_attemptsTrace params env n (fun j _ => hret j)
  refine ⟨stateAt params env n, ?_, ?_, ?_, ?_⟩
  · rw [Apply_exhaust params env hall, hto]
  · rw [stateAt_trace, hw]
    simp
  · intro m hm
    rw [stateAt_trace]
    exact ⟨backoff params m, wait_mem_of_retried params env n m (by omega) (hret m)⟩
  · intro hst
    have hb : ∀ i : Int, backoff params i = params.FirstRetryDuration := by
      intro i
      simp [backoff, hst, Stable, LinearIncrease]
    have hrep : elapsedWaits (stateAt params env n).trace =
        List.replicate n params.FirstRetryDuration := by
      rw [stateAt_trace, hw]
      simp [hb]
    rw [hrep]
    simp

/-- Witness of amended C6: `RetryCount = 3` under `Stable`. -/
theorem apply_waits_after_every_failed_attempt_witness :
    ∃ run, FiniteRetryStrategy.Apply (retryAll 3 7 Stable) alwaysFails = some run ∧
      (elapsedWaits run.trace).length = 3 ∧
      (∀ m : Nat, 3 = m + 1 → ∃ d, Event.wait (m : Int) d true ∈ run.trace) ∧
      ((retryAll 3 7 Stable).BackoffStrategy = Stable →
        elapsedWaits run.trace = List.replicate 3 (retryAll 3 7 Stable).FirstRetryDuration ∧
        (elapsedWaits run.trace).sum =
          ((3 : Nat) : Int) * (retryAll 3 7 Stable).FirstRetryDuration) :=
  apply_waits_after_every_failed_attempt (retryAll 3 7 Stable) alwaysFails 3 rfl
    (fun j => ⟨100 + j, rfl, rfl⟩) (fun _ => rfl)

/-- C7, as the claim states it, fails: under `LinearIncrease` with
`FirstRetryDuration = 2^62` nanoseconds the wait after the attempt with
1-based index 2 is `-2^63`, the `int64` product, and not `2 * 2^62`. -/
theorem apply_wait_duration_counterexample :
    (FiniteRetryStrategy.Apply (retryAll 2 (2 ^ 62) LinearIncrease) alwaysFails).map
        (fun run => run.trace) =
      some [Event.invoke 0 (some 0) (some 100), Event.consult 0 100 true,
        Event.wait 0 (2 ^ 62) true,
        Event.invoke 1 (some 1) (some 101), Event.consult 1 101 true,
        Event.wait 1 (-(2 ^ 63)) true] ∧
      (-(2 ^ 63) : Int) ≠ 2 * 2 ^ 62 := by
  decide

/-- C7, amended: the wait that `Apply` requests after the failed retryable
attempt with 0-based index `i` (1-based index `k = i + 1`) depends only on
the backoff kind, the attempt index and `FirstRetryDuration`.  Under
`Stable` it is `FirstRetryDuration`; under `LinearIncrease` it is the
`int64` product of `k` and `FirstRetryDuration`, which is
`k * FirstRetryDuration` whenever that product fits in an `int64`; the wait
before the first retry (`i = 0`) is `FirstRetryDuration` under every kind.
`FirstRetryDuration` is an `int64` value. -/
theorem apply_wait_duration {ρ ε : Type} (params : Params ε) (env : Env ρ ε)
    (hd : -(2 ^ 63) ≤ params.FirstRetryDuration ∧ params.FirstRetryDuration < 2 ^ 63) :
    ∃ run, FiniteRetryStrategy.Apply params env = some run ∧
      ∀ (i d : Int) (b : Bool), Event.wait i d b ∈ run.trace →
        (params.BackoffStrategy = Stable → d = params.FirstRetryDuration) ∧
        (params.BackoffStrategy = LinearIncrease →
          d = wrapInt64 ((i + 1) * params.FirstRetryDuration) ∧
          (-(2 ^ 63) ≤ (i + 1) * params.FirstRetryDuration ∧
              (i + 1) * params.FirstRetryDuration < 2 ^ 63 →
            d = (i + 1) * params.FirstRetryDuration)) ∧
        (i = 0 → d = params.FirstRetryDuration) := by
  obtain ⟨run, m, hrun, htr⟩ := Apply_trace params env
  refine ⟨run, hrun, ?_⟩
  intro i d b hmem
  rw [htr] at hmem
  obtain ⟨j, _, hij, _, hdur, _⟩ := wait_mem_attemptsTrace params env m i d b hmem
  rw [← hij] at hdur
  refine ⟨?_, ?_, ?_⟩
  · intro hst
    simp [hdur, backoff, hst, Stable, LinearIncrease]
  · intro hlin
    have hw : d = wrapInt64 ((i + 1) * params.FirstRetryDuration) := by
      simp [hdur, backoff, hlin]
    exact ⟨hw, fun hfit => by rw [hw, wrapInt64_of_fits _ hfit]⟩
  · intro hi0
    by_cases hlin : params.BackoffStrategy = LinearIncrease
    · have hone : (i + 1) * params.FirstRetryDuration = params.FirstRetryDuration := by
        rw [hi0]; ring
      simp only [hdur, backoff, hlin, if_true, hone]
      exact wrapInt64_of_fits _ hd
    · simp [hdur, backoff, hlin]

/-- Witness of amended C7: `FirstRetryDuration = 5` under `LinearIncrease`. -/
theorem apply_wait_duration_witness :
    ∃ run, FiniteRetryStrategy.Apply (retryAll 3 5 LinearIncrease) alwaysFails = some run ∧
      ∀ (i d : Int) (b : Bool), Event.wait i d b ∈ run.trace →
        ((retryAll 3 5 LinearIncrease).BackoffStrategy = Stable →
          d = (retryAll 3 5 LinearIncrease).FirstRetryDuration) ∧
        ((retryAll 3 5 LinearIncrease).BackoffStrategy = LinearIncrease →
          d = wrapInt64 ((i + 1) * (retryAll 3 5 LinearIncrease).FirstRetryDuration) ∧
          (-(2 ^ 63) ≤ (i + 1) * (retryAll 3 5 LinearIncrease).FirstRetryDuration ∧
              (i + 1) * (retryAll 3 5 LinearIncrease).FirstRetryDuration < 2 ^ 63 →
            d = (i + 1) * (retryAll 3 5 LinearIncrease).FirstRetryDuration)) ∧
        (i = 0 → d = (retryAll 3 5 LinearIncrease).FirstRetryDuration) :=
  apply_wait_duration (retryAll 3 5 LinearIncrease) alwaysFails (by decide)

/-- C8, as the claim states it, fails: under `LinearIncrease` with
`FirstRetryDuration = 5` and an operation that keeps failing, the wait made
before attempt 1 (0-indexed) is 5, not `(1 + 1) * 5`, and the wait made
before attempt 2 is 10, not `(2 + 1) * 5`. -/
theorem apply_linear_wait_before_counterexample :
    (FiniteRetryStrategy.Apply (retryAll 3 5 LinearIncrease) alwaysFails).map
        (fun run => (waitBefore run.trace 1, waitBefore run.trace 2)) =
      some (some 5, some 10) ∧
      (5 : Int) ≠ (1 + 1) * 5 ∧ (10 : Int) ≠ (2 + 1) * 5 := by
  decide

/-- C8, amended: under `LinearIncrease` with `FirstRetryDuration = d`, an
operation that keeps failing with a retryable error and a context that is
never done, the wait made directly before attempt `i` (0-indexed,
`1 <= i < RetryCount`) is the `int64` product of `i` and `d`, which is `i * d`
whenever that fits in an `int64`; attempt 0 is preceded by no wait.  So
`(i + 1) * d` is the wait made after attempt `i`, before attempt `i + 1`. -/
theorem apply_linear_wait_before {ρ ε : Type} (params : Params ε) (env : Env ρ ε)
    (n : Nat) (hc : params.RetryCount = (n : Int))
    (hlin : params.BackoffStrategy = LinearIncrease)
    (hfail : ∀ j, FailsRetryably params env j)
    (hwait : ∀ j, env.ctxDone j = false) :
    ∃ run, FiniteRetryStrategy.Apply params env = some run ∧
      waitBefore run.trace 0 = none ∧
      ∀ i : Nat, 1 ≤ i → i < n →
        waitBefore run.trace (i : Int) =
            some (wrapInt64 ((i : Int) * params.FirstRetryDuration)) ∧
        (-(2 ^ 63) ≤ (i : Int) * params.FirstRetryDuration ∧
            (i : Int) * params.FirstRetryDuration < 2 ^ 63 →
          waitBefore run.trace (i : Int) = some ((i : Int) * params.FirstRetryDuration)) := by
  have hret : ∀ j : Nat, retried params env j = true :=
    fun j => (retried_iff params env j).mpr ⟨hfail j, hwait j⟩
  have hall : ∀ j : Nat, (j : Int) < params.RetryCount → retried params env j = true :=
    fun j _ => hret j
  have hto : params.RetryCount.toNat = n := by rw [hc]; simp
  have htr : (stateAt params env n).trace = attemptsFrom params env 0 n := by
    have := attemptsTrace_add params env n 0
    simp only [Nat.zero_add, attemptsTrace, List.nil_append] at this
    rw [stateAt_trace, this]
  refine ⟨stateAt params env n, ?_, ?_, ?_⟩
  · rw [Apply_exhaust params env hall, hto]
  · rw [htr]
    cases n with
    | zero => simp [attemptsFrom, waitBefore, waitBeforeAux]
    | succ n =>
      have h0 := waitBeforeAux_attemptsFrom params env (n + 1) 0 0 none
        (fun j _ _ => hret j) (le_refl 0) (by omega)
      simpa [waitBefore] using h0
  · intro i hi1 hin
    have hi := waitBeforeAux_attemptsFrom params env n 0 i none
      (fun j _ _ => hret j) (by omega) (by omega)
    have hne : ¬ i = 0 := by omega
    have hcast : (((i - 1 : Nat) : Int)) + 1 = (i : Int) := by omega
    have hw : waitBefore (stateAt params env n).trace (i : Int) =
        some (wrapInt64 ((i : Int) * params.FirstRetryDuration)) := by
      rw [htr]
      unfold waitBefore
      rw [hi, if_neg hne]
      simp only [backoff, hlin, if_true, hcast]
    exact ⟨hw, fun hfit => by rw [hw, wrapInt64_of_fits _ hfit]⟩

/-- Witness of amended C8: `RetryCount = 3`, `FirstRetryDuration = 5`. -/
theorem apply_linear_wait_before_witness :
    ∃ run, FiniteRetryStrategy.Apply (retryAll 3 5 LinearIncrease) alwaysFails = some run ∧
      waitBefore run.trace 0 = none ∧
      ∀ i : Nat, 1 ≤ i → i < 3 →
        waitBefore run.trace (i : Int) =
            some (wrapInt64 ((i : Int) * (retryAll 3 5 LinearIncrease).FirstRetryDuration)) ∧
        (-(2 ^ 63) ≤ (i : Int) * (retryAll 3 5 LinearIncrease).FirstRetryDuration ∧
            (i : Int) * (retryAll 3 5 LinearIncrease).FirstRetryDuration < 2 ^ 63 →
          waitBefore run.trace (i : Int) =
            some ((i : Int) * (retryAll 3 5 LinearIncrease).FirstRetryDuration)) :=
  apply_linear_wait_before (retryAll 3 5 LinearIncrease) alwaysFails 3 rfl rfl
    (fun j => ⟨100 + j, rfl, rfl⟩) (fun _ => rfl)

/-- C9, as the claim states it, fails: with `RetryCount = 1` and an operation
that succeeds at once, `Apply` returns the count 0 after invoking the
operation once. -/
theorem apply_count_counterexample :
    (FiniteRetryStrategy.Apply (retryAll 1 5 Stable) (succeedsAt 0)).map
        (fun run => (run.ret, run.i, run.err, invocations run.trace)) =
      some (some 0, 0, none, 1) ∧ (0 : Int) ≠ ((1 : Nat) : Int) := by
  decide

/-- C9, amended: the integer returned by `Apply` is the loop index at the
exit (the "number of retry" of the interface comment), which is the number
of waits that elapsed.  For every `Params`, operation and cancellation
pattern `Apply` returns, and the count equals the number of invocations of
the operation when the run ends because the loop condition fails (the budget
is used up, or `RetryCount <= 0`), and is one less than the number of
invocations when the run stops on success, on a non-retryable error or on
cancellation. -/
theorem apply_count_vs_invocations {ρ ε : Type} (params : Params ε) (env : Env ρ ε) :
    ∃ run, FiniteRetryStrategy.Apply params env = some run ∧
      ((elapsedWaits run.trace).length : Int) = run.i ∧
      (exitOf run.trace = Exit.budget → (invocations run.trace : Int) = run.i) ∧
      (exitOf run.trace ≠ Exit.budget → (invocations run.trace : Int) = run.i + 1) := by
  rcases Apply_cases params env with ⟨k, _, hpre, hstop, hrun⟩ | ⟨hall, hrun⟩
  · have hex : exitOf (stopAt params env k).trace ≠ Exit.budget := by
      simp only [stopAt]
      rw [exitOf_attemptsTrace_succ]
      intro hb
      rw [(exitOf_attemptEvents_budget params env k).mp hb] at hstop
      exact Bool.noConfusion hstop
    refine ⟨_, hrun, ?_, fun hb => absurd hb hex, fun _ => ?_⟩
    · simp [stopAt, attemptsTrace, elapsedWaits_append,
        elapsedWaits_attemptsTrace params env k hpre,
        elapsedWaits_attemptEvents_of_not_retried params env k hstop]
    · simp [stopAt, invocations_attemptsTrace]
  · refine ⟨_, hrun, ?_, fun _ => ?_, fun hne => ?_⟩
    · rw [stateAt_trace, stateAt_i,
        elapsedWaits_attemptsTrace params env _ (fun j hj => hall j (by omega))]
      simp
    · rw [stateAt_trace, invocations_attemptsTrace, stateAt_i]
    · exfalso
      apply hne
      rw [stateAt_trace]
      cases hm : params.RetryCount.toNat with
      | zero => simp [attemptsTrace, exitOf]
      | succ m =>
        rw [exitOf_attemptsTrace_succ]
        exact (exitOf_attemptEvents_budget params env m).mpr (hall m (by omega))

/-- C10: the returned count tells "gave up" from the other exits.  For
`RetryCount = n >= 1`, `Apply` returns count `n` if and only if all `n`
attempts failed with retryable errors and every wait elapsed without
cancellation; whenever the run stops on success, on a non-retryable error or
on cancellation, the returned count is strictly less than `n`. -/
theorem apply_count_is_budget_iff_exhausted {ρ ε : Type} (params : Params ε)
    (env : Env ρ ε) (n : Nat) (hn : 1 ≤ n) (hc : params.RetryCount = (n : Int)) :
    ∃ run, FiniteRetryStrategy.Apply params env = some run ∧
      (run.i = (n : Int) ↔
        ∀ j, j < n → FailsRetryably params env j ∧ env.ctxDone j = false) ∧
      (exitOf run.trace = Exit.success ∨ exitOf run.trace = Exit.notRetryable ∨
          exitOf run.trace = Exit.cancelled → run.i < (n : Int)) := by
  rcases Apply_cases params env with ⟨k, hk, _, hstop, hrun⟩ | ⟨hall, hrun⟩
  · have hkn : k < n := by rw [hc] at hk; exact_mod_cast hk
    refine ⟨_, hrun, ⟨fun hi => ?_, fun hex => ?_⟩, fun _ => ?_⟩
    · simp only [stopAt] at hi
      have : k = n := by exact_mod_cast hi
      omega
    · have := (retried_iff params env k).mpr (hex k hkn)
      rw [hstop] at this
      exact Bool.noConfusion this
    · simp only [stopAt]
      exact_mod_cast hkn
  · have hto : params.RetryCount.toNat = n := by rw [hc]; simp
    rw [hto] at hrun
    obtain ⟨m, rfl⟩ : ∃ m, n = m + 1 := ⟨n - 1, by omega⟩
    have hb : exitOf (stateAt params env (m + 1)).trace = Exit.budget := by
      rw [stateAt_trace, exitOf_attemptsTrace_succ]
      exact (exitOf_attemptEvents_budget params env m).mpr (hall m (by rw [hc]; simp))
    refine ⟨_, hrun, ⟨fun _ j hj => ?_, fun _ => stateAt_i params env (m + 1)⟩, fun hex => ?_⟩
    · exact (retried_iff params env j).mp (hall j (by rw [hc]; exact_mod_cast hj))
    · rw [hb] at hex
      simp at hex

/-- Witness of C10: budget 3 and success at attempt 2. -/
theorem apply_count_is_budget_iff_exhausted_witness :
    ∃ run, FiniteRetryStrategy.Apply (retryAll 3 5 Stable) (succeedsAt 2) = some run ∧
      (run.i = ((3 : Nat) : Int) ↔
        ∀ j, j < 3 → FailsRetryably (retryAll 3 5 Stable) (succeedsAt 2) j ∧
          (succeedsAt 2).ctxDone j = false) ∧
      (exitOf run.trace = Exit.success ∨ exitOf run.trace = Exit.notRetryable ∨
          exitOf run.trace = Exit.cancelled → run.i < ((3 : Nat) : Int)) :=
  apply_count_is_budget_iff_exhausted (retryAll 3 5 Stable) (succeedsAt 2) 3 (by decide) rfl

/-! ## Bounds, the predicate and the wrapper -/

theorem selects_attemptEvents_le {ρ ε : Type} (params : Params ε) (env : Env ρ ε) (j : Nat) :
    selects (attemptEvents params env j) ≤ 1 := by
  unfold attemptEvents
  split
  · simp [selects]
  · split <;> simp [selects]

theorem selects_attemptsTrace_le {ρ ε : Type} (params : Params ε) (env : Env ρ ε) (m : Nat) :
    selects (attemptsTrace params env m) ≤ m := by
  induction m with
  | zero => simp [attemptsTrace, selects]
  | succ m ih =>
    have := selects_attemptEvents_le params env m
    rw [attemptsTrace, selects_append]
    omega

/-- The trace of a run is the trace of at most `RetryCount` passes. -/
theorem Apply_trace_le {ρ ε : Type} (params : Params ε) (env : Env ρ ε)
    (hn : 0 ≤ params.RetryCount) :
    ∃ run m, FiniteRetryStrategy.Apply params env = some run ∧
      run.trace = attemptsTrace params env m ∧ (m : Int) ≤ params.RetryCount := by
  rcases Apply_cases params env with ⟨k, hk, _, _, h⟩ | ⟨_, h⟩
  · exact ⟨_, k + 1, h, rfl, by push_cast; omega⟩
  · exact ⟨_, _, h, stateAt_trace params env _, by omega⟩

/-- With a positive budget the trace of a run starts with the first pass. -/
theorem Apply_trace_pos {ρ ε : Type} (params : Params ε) (env : Env ρ ε)
    (hn : 1 ≤ params.RetryCount) :
    ∃ run m, FiniteRetryStrategy.Apply params env = some run ∧
      run.trace = attemptEvents params env 0 ++ attemptsFrom params env 1 m := by
  have hsplit : ∀ m, attemptsTrace params env (m + 1) =
      attemptEvents params env 0 ++ attemptsFrom params env 1 m := by
    intro m
    have := attemptsTrace_add params env (m + 1) 0
    simpa [attemptsTrace, attemptsFrom] using this
  rcases Apply_cases params env with ⟨k, _, _, _, h⟩ | ⟨_, h⟩
  · exact ⟨_, k, h, hsplit k⟩
  · obtain ⟨m, hm⟩ : ∃ m, params.RetryCount.toNat = m + 1 :=
      ⟨params.RetryCount.toNat - 1, by omega⟩
    refine ⟨_, m, h, ?_⟩
    rw [stateAt_trace, hm, hsplit m]

theorem consults_append {ρ ε : Type} (a b : List (Event ρ ε)) :
    consults (a ++ b) = consults a ++ consults b := by
  induction a with
  | nil => simp [consults]
  | cons x xs ih => cases x <;> simp [consults, ih]

theorem failures_append {ρ ε : Type} (a b : List (Event ρ ε)) :
    failures (a ++ b) = failures a ++ failures b := by
  induction a with
  | nil => simp [failures]
  | cons x xs ih =>
    cases x with
    | invoke i r e => cases e <;> simp [failures, ih]
    | consult i e b => simp [failures, ih]
    | wait i d b => simp [failures, ih]

theorem invokeIndices_append {ρ ε : Type} (a b : List (Event ρ ε)) :
    invokeIndices (a ++ b) = invokeIndices a ++ invokeIndices b := by
  induction a with
  | nil => simp [invokeIndices]
  | cons x xs ih => cases x <;> simp [invokeIndices, ih]

theorem consults_attemptEvents {ρ ε : Type} (params : Params ε) (env : Env ρ ε) (j : Nat) :
    consults (attemptEvents params env j) = failures (attemptEvents params env j) := by
  unfold attemptEvents
  split
  · simp [consults, failures]
  · split <;> simp [consults, failures]

theorem consults_attemptsTrace {ρ ε : Type} (params : Params ε) (env : Env ρ ε) (m : Nat) :
    consults (attemptsTrace params env m) = failures (attemptsTrace params env m) := by
  induction m with
  | zero => simp [attemptsTrace, consults, failures]
  | succ m ih =>
    rw [attemptsTrace, consults_append, failures_append, ih, consults_attemptEvents]

theorem invokeIndices_attemptEvents {ρ ε : Type} (params : Params ε) (env : Env ρ ε)
    (j : Nat) : invokeIndices (attemptEvents params env j) = [(j : Int)] := by
  unfold attemptEvents
  split
  · simp [invokeIndices]
  · split <;> simp [invokeIndices]

theorem invokeIndices_attemptsTrace {ρ ε : Type} (params : Params ε) (env : Env ρ ε)
    (m : Nat) :
    invokeIndices (attemptsTrace params env m) =
      (List.range m).map (fun (j : Nat) => (j : Int)) := by
  induction m with
  | zero => simp [attemptsTrace, invokeIndices]
  | succ m ih =>
    rw [attemptsTrace, invokeIndices_append, ih, invokeIndices_attemptEvents,
      List.range_succ, List.map_append]
    simp

theorem consult_mem_attemptEvents {ρ ε : Type} (params : Params ε) (env : Env ρ ε) (j : Nat)
    (i : Int) (e : ε) (a : Bool) (h : Event.consult i e a ∈ attemptEvents params env j) :
    i = (j : Int) ∧ (env.operateFn j).2 = some e ∧ a = params.IsRetryableFn (j : Int) e := by
  unfold attemptEvents at h
  cases hop : (env.operateFn j).2 with
  | none => simp [hop] at h
  | some e' =>
    by_cases hr : params.IsRetryableFn (j : Int) e' = true
    · simp [hop, hr] at h
      obtain ⟨h1, h2, h3⟩ := h
      subst h2
      exact ⟨h1, rfl, by rw [h3, hr]⟩
    · simp [hop, hr] at h
      obtain ⟨h1, h2, h3⟩ := h
      subst h2
      exact ⟨h1, rfl, by rw [h3]; simpa using hr⟩

/-- C11: the attempt count is bounded.  For every `Params` with
`RetryCount = n >= 0`, every operation, predicate and cancellation pattern,
`Apply` returns, having invoked the operation at most `n` times and entered
at most `n` waits. -/
theorem apply_attempts_bounded {ρ ε : Type} (params : Params ε) (env : Env ρ ε)
    (hn : 0 ≤ params.RetryCount) :
    ∃ run, FiniteRetryStrategy.Apply params env = some run ∧
      (invocations run.trace : Int) ≤ params.RetryCount ∧
      (selects run.trace : Int) ≤ params.RetryCount := by
  obtain ⟨run, m, hrun, htr, hm⟩ := Apply_trace_le params env hn
  refine ⟨run, hrun, ?_, ?_⟩
  · rw [htr, invocations_attemptsTrace]
    exact hm
  · have := selects_attemptsTrace_le params env m
    rw [htr]
    omega

/-- Witness of C11: budget 4 with a context done during the wait after
attempt 1. -/
theorem apply_attempts_bounded_witness :
    ∃ run, FiniteRetryStrategy.Apply (retryAll 4 5 Stable) (cancelledAt 1) = some run ∧
      (invocations run.trace : Int) ≤ (retryAll 4 5 Stable).RetryCount ∧
      (selects run.trace : Int) ≤ (retryAll 4 5 Stable).RetryCount :=
  apply_attempts_bounded (retryAll 4 5 Stable) (cancelledAt 1) (by decide)

/-- C17: `Apply` calls `IsRetryableFn` exactly once for every failed attempt
and never for a successful one.  In every run the calls of the predicate
are, in order, exactly the failed attempts, each with the loop index and the
error of that same attempt; the loop index of the `j`-th invocation of the
operation is `j`, so the index passed is the 0-based index of the attempt;
what the trace records as the answer is the value of the predicate at these
arguments; and when the first attempt fails, the first call of the predicate
gets index 0 and the error of the first attempt. -/
theorem apply_consults_each_failure_once {ρ ε : Type} (params : Params ε) (env : Env ρ ε) :
    ∃ run, FiniteRetryStrategy.Apply params env = some run ∧
      consults run.trace = failures run.trace ∧
      invokeIndices run.trace =
        (List.range (invocations run.trace)).map (fun (j : Nat) => (j : Int)) ∧
      (∀ i e a, Event.consult i e a ∈ run.trace → a = params.IsRetryableFn i e) ∧
      (∀ e, 1 ≤ params.RetryCount → (env.operateFn 0).2 = some e →
        (consults run.trace).head? = some (0, e)) := by
  obtain ⟨run, m, hrun, htr⟩ := Apply_trace params env
  refine ⟨run, hrun, ?_, ?_, ?_, ?_⟩
  · rw [htr, consults_attemptsTrace]
  · rw [htr, invocations_attemptsTrace, invokeIndices_attemptsTrace]
  · intro i e a hmem
    rw [htr] at hmem
    obtain ⟨j, _, hx⟩ := (mem_attemptsTrace params env m _).mp hmem
    obtain ⟨hi, _, ha⟩ := consult_mem_attemptEvents params env j i e a hx
    rw [ha, hi]
  · intro e hn he
    obtain ⟨run', m', hrun', htr'⟩ := Apply_trace_pos params env hn
    have hsame : run' = run := by
      rw [hrun] at hrun'
      exact (Option.some.inj hrun').symm
    rw [← hsame, htr', consults_append]
    unfold attemptEvents
    rw [he]
    by_cases hr : params.IsRetryableFn (0 : Int) e = true
    · simp [hr, consults]
    · simp [hr, consults]

/-- C18: `FiniteRetryer.Apply(ctx, op)` is `FiniteRetryStrategy.Apply(ctx,
*Params, op)`.  For every stored `Params`, operation and cancellation
pattern both return, and they return the same run: the same result, count
and error after the same invocations, calls of the predicate and waits. -/
theorem retryer_apply_eq_strategy_apply {ρ ε : Type} (s : FiniteRetryer ε)
    (params : Params ε) (env : Env ρ ε) (hp : s.Params = some params) :
    ∃ run, FiniteRetryer.Apply s env = some run ∧
      FiniteRetryStrategy.Apply params env = some run := by
  obtain ⟨run, _, hrun, _⟩ := Apply_trace params env
  refine ⟨run, ?_, hrun⟩
  unfold FiniteRetryer.Apply
  rw [hp]
  exact hrun

/-- Witness of C18: a retryer that stores budget 3 and `LinearIncrease`. -/
theorem retryer_apply_eq_strategy_apply_witness :
    ∃ run, FiniteRetryer.Apply ⟨some (retryAll 3 5 LinearIncrease)⟩ (succeedsAt 1) = some run ∧
      FiniteRetryStrategy.Apply (retryAll 3 5 LinearIncrease) (succeedsAt 1) = some run :=
  retryer_apply_eq_strategy_apply ⟨some (retryAll 3 5 LinearIncrease)⟩
    (retryAll 3 5 LinearIncrease) (succeedsAt 1) rfl

/-- C19: for every `Params` with `RetryCount <= 0`, `Apply` returns
`(nil, 0, nil)` with an empty trace: the operation is never invoked, the
predicate is never called and no wait is made, and the error is nil although
nothing was attempted. -/
theorem apply_nonpositive_budget {ρ ε : Type} (params : Params ε) (env : Env ρ ε)
    (h : params.RetryCount ≤ 0) :
    FiniteRetryStrategy.Apply params env = some ⟨none, 0, none, []⟩ := by
  have hall : ∀ j : Nat, (j : Int) < params.RetryCount → retried params env j = true := by
    intro j hj
    omega
  have hz : params.RetryCount.toNat = 0 := by omega
  rw [Apply_exhaust params env hall, hz]
  rfl

/-- Witness of C19: `RetryCount = -2` with an operation that would succeed. -/
theorem apply_nonpositive_budget_witness :
    FiniteRetryStrategy.Apply (retryAll (-2) 5 Stable) (succeedsAt 0) =
      some ⟨none, 0, none, []⟩ :=
  apply_nonpositive_budget (retryAll (-2) 5 Stable) (succeedsAt 0) (by decide)

/-- C20: for `RetryCount = n >= 1` and every run, the operation is invoked
exactly `min (c + 1) n` times, where `c` is the count `Apply` returns.  When
the run stops on success, on a non-retryable error or on cancellation, `c`
is the loop index of the last invocation; and `c = n` exactly when the run
ends because the loop condition fails. -/
theorem apply_invocations_eq_min {ρ ε : Type} (params : Params ε) (env : Env ρ ε)
    (hn : 1 ≤ params.RetryCount) :
    ∃ run, FiniteRetryStrategy.Apply params env = some run ∧
      (invocations run.trace : Int) = min (run.i + 1) params.RetryCount ∧
      (exitOf run.trace ≠ Exit.budget → (invokeIndices run.trace).getLast? = some run.i) ∧
      (run.i = params.RetryCount ↔ exitOf run.trace = Exit.budget) := by
  rcases Apply_cases params env with ⟨k, hk, _, hstop, hrun⟩ | ⟨hall, hrun⟩
  · have hex : exitOf (stopAt params env k).trace ≠ Exit.budget := by
      simp only [stopAt]
      rw [exitOf_attemptsTrace_succ]
      intro hb
      rw [(exitOf_attemptEvents_budget params env k).mp hb] at hstop
      exact Bool.noConfusion hstop
    refine ⟨_, hrun, ?_, fun _ => ?_, ⟨fun hi => ?_, fun hb => absurd hb hex⟩⟩
    · simp only [stopAt, invocations_attemptsTrace]
      push_cast
      omega
    · simp only [stopAt]
      rw [invokeIndices_attemptsTrace, List.range_succ, List.map_append]
      simp
    · simp only [stopAt] at hi
      omega
  · obtain ⟨m, hm⟩ : ∃ m, params.RetryCount.toNat = m + 1 :=
      ⟨params.RetryCount.toNat - 1, by omega⟩
    have hb : exitOf (stateAt params env params.RetryCount.toNat).trace = Exit.budget := by
      rw [stateAt_trace, hm, exitOf_attemptsTrace_succ]
      exact (exitOf_attemptEvents_budget params env m).mpr (hall m (by omega))
    refine ⟨_, hrun, ?_, fun hne => absurd hb hne, ⟨fun _ => hb, fun _ => ?_⟩⟩
    · rw [stateAt_trace, invocations_attemptsTrace, stateAt_i]
      omega
    · rw [stateAt_i]
      omega

/-- Witness of C20: budget 3 and an error rejected at attempt 1. -/
theorem apply_invocations_eq_min_witness :
    ∃ run, FiniteRetryStrategy.Apply (retryUnless13 3 5 Stable) (fails13At 1) = some run ∧
      (invocations run.trace : Int) = min (run.i + 1) (retryUnless13 3 5 Stable).RetryCount ∧
      (exitOf run.trace ≠ Exit.budget → (invokeIndices run.trace).getLast? = some run.i) ∧
      (run.i = (retryUnless13 3 5 Stable).RetryCount ↔ exitOf run.trace = Exit.budget) :=
  apply_invocations_eq_min (retryUnless13 3 5 Stable) (fails13At 1) (by decide)

/-! ## Cancellation and the backoff kind -/

/-- The events of a pass that does not fail retryably do not depend on the
context. -/
theorem attemptEvents_of_not_fails {ρ ε : Type} (params : Params ε)
    (operateFn : Nat → Option ρ × Option ε) (done1 done2 : Nat → Bool) (j : Nat)
    (h : ¬ FailsRetryably params (Env.mk operateFn done1) j) :
    attemptEvents params (Env.mk operateFn done1) j =
      attemptEvents params (Env.mk operateFn done2) j := by
  unfold FailsRetryably at h
  unfold attemptEvents
  cases hop : (operateFn j).2 with
  | none => simp [hop]
  | some e =>
    by_cases hr : params.IsRetryableFn (j : Int) e = true
    · exact absurd ⟨e, hop, hr⟩ h
    · simp [hop, hr]

theorem retried_of_not_fails {ρ ε : Type} (params : Params ε) (env : Env ρ ε) (j : Nat)
    (h : ¬ FailsRetryably params env j) : retried params env j = false := by
  cases hr : retried params env j with
  | false => rfl
  | true => exact absurd ((retried_iff params env j).mp hr).1 h

/-- One pass of the loop does the same under `Stable` as under any backoff
kind other than `LinearIncrease`. -/
theorem body_stable_of_ne_linear {ρ ε : Type} (params : Params ε) (env : Env ρ ε)
    (s : Run ρ ε) (hb : params.BackoffStrategy ≠ LinearIncrease) :
    body { params with BackoffStrategy := Stable } env s = body params env s := by
  have hs : ¬ (Stable = LinearIncrease) := by decide
  unfold body
  simp only [if_neg hb, if_neg hs]

theorem applyLoop_stable_of_ne_linear {ρ ε : Type} (params : Params ε) (env : Env ρ ε)
    (hb : params.BackoffStrategy ≠ LinearIncrease) (fuel : Nat) (s : Run ρ ε) :
    applyLoop { params with BackoffStrategy := Stable } env fuel s =
      applyLoop params env fuel s := by
  induction fuel generalizing s with
  | zero => rfl
  | succ fuel ih =>
    simp only [applyLoop, body_stable_of_ne_linear params env s hb]
    split
    · split
      · exact ih _
      · rfl
    · rfl

/-- C21: cancellation is observed only after a failed retryable attempt.
For `RetryCount >= 1` the operation is invoked at least once whatever the
state of the context, also when it is done from the start; and if the first
attempt succeeds or fails with an error the predicate rejects, two runs that
differ only in the cancellation pattern return the same result, count and
error (and make the same calls). -/
theorem apply_first_attempt_ignores_context {ρ ε : Type} (params : Params ε)
    (operateFn : Nat → Option ρ × Option ε) (done1 done2 : Nat → Bool)
    (hn : 1 ≤ params.RetryCount) :
    ∃ run1 run2,
      FiniteRetryStrategy.Apply params (Env.mk operateFn done1) = some run1 ∧
      FiniteRetryStrategy.Apply params (Env.mk operateFn done2) = some run2 ∧
      1 ≤ invocations run1.trace ∧ 1 ≤ invocations run2.trace ∧
      (((operateFn 0).2 = none ∨
          ∃ e, (operateFn 0).2 = some e ∧ params.IsRetryableFn 0 e = false) →
        run1.ret = run2.ret ∧ run1.i = run2.i ∧ run1.err = run2.err ∧
          run1.trace = run2.trace) := by
  obtain ⟨run1, m1, hrun1, htr1⟩ := Apply_trace_pos params (Env.mk operateFn done1) hn
  obtain ⟨run2, m2, hrun2, htr2⟩ := Apply_trace_pos params (Env.mk operateFn done2) hn
  refine ⟨run1, run2, hrun1, hrun2, ?_, ?_, ?_⟩
  · rw [htr1, invocations_append, invocations_attemptEvents]
    omega
  · rw [htr2, invocations_append, invocations_attemptEvents]
    omega
  · intro hfirst
    have hnf : ∀ d : Nat → Bool, ¬ FailsRetryably params (Env.mk operateFn d) 0 := by
      intro d hf
      obtain ⟨e, he, hr⟩ := hf
      simp only [Nat.cast_zero] at hr
      rcases hfirst with hnone | ⟨e', he', hr'⟩
      · rw [hnone] at he
        cases he
      · rw [he'] at he
        cases he
        rw [hr'] at hr
        cases hr
    have hk : ((0 : Nat) : Int) < params.RetryCount := by simpa using hn
    have h1 := Apply_stop params (Env.mk operateFn done1) 0 hk (fun j hj => by omega)
      (retried_of_not_fails params _ 0 (hnf done1))
    have h2 := Apply_stop params (Env.mk operateFn done2) 0 hk (fun j hj => by omega)
      (retried_of_not_fails params _ 0 (hnf done2))
    rw [hrun1] at h1
    rw [hrun2] at h2
    cases h1
    cases h2
    refine ⟨rfl, rfl, rfl, ?_⟩
    simp only [stopAt, attemptsTrace, List.nil_append]
    exact attemptEvents_of_not_fails params operateFn done1 done2 0 (hnf done1)

/-- Witness of C21: an operation that succeeds at once, under a context that
is never done and under one that is done from the start. -/
theorem apply_first_attempt_ignores_context_witness :
    ∃ run1 run2,
      FiniteRetryStrategy.Apply (retryAll 3 5 Stable)
        (Env.mk (succeedsAt 0).operateFn (fun _ => false)) = some run1 ∧
      FiniteRetryStrategy.Apply (retryAll 3 5 Stable)
        (Env.mk (succeedsAt 0).operateFn (fun _ => true)) = some run2 ∧
      1 ≤ invocations run1.trace ∧ 1 ≤ invocations run2.trace ∧
      ((((succeedsAt 0).operateFn 0).2 = none ∨
          ∃ e, ((succeedsAt 0).operateFn 0).2 = some e ∧
            (retryAll 3 5 Stable).IsRetryableFn 0 e = false) →
        run1.ret = run2.ret ∧ run1.i = run2.i ∧ run1.err = run2.err ∧
          run1.trace = run2.trace) :=
  apply_first_attempt_ignores_context (retryAll 3 5 Stable) (succeedsAt 0).operateFn
    (fun _ => false) (fun _ => true) (by decide)

/-- C22: every `BackoffStrategy` value other than `LinearIncrease`, the zero
value of an unset `Params` included, behaves exactly like `Stable`.  For
every such value `Apply` returns, the run is the run that `Stable` gives
(the same calls and waits in the same order, the same result, count and
error), and every wait it requests is `FirstRetryDuration`. -/
theorem apply_other_backoff_as_stable {ρ ε : Type} (params : Params ε) (env : Env ρ ε)
    (hb : params.BackoffStrategy ≠ LinearIncrease) :
    ∃ run, FiniteRetryStrategy.Apply params env = some run ∧
      FiniteRetryStrategy.Apply { params with BackoffStrategy := Stable } env = some run ∧
      ∀ i d b, Event.wait i d b ∈ run.trace → d = params.FirstRetryDuration := by
  obtain ⟨run, m, hrun, htr⟩ := Apply_trace params env
  refine ⟨run, hrun, ?_, ?_⟩
  · rw [← hrun]
    exact applyLoop_stable_of_ne_linear params env hb _ _
  · intro i d b hmem
    rw [htr] at hmem
    obtain ⟨j, _, _, _, hdur, _⟩ := wait_mem_attemptsTrace params env m i d b hmem
    rw [hdur]
    simp [backoff, hb]

/-- Witness of C22: the zero value of `BackoffStrategy`. -/
theorem apply_other_backoff_as_stable_witness :
    ∃ run, FiniteRetryStrategy.Apply (retryAll 3 5 0) alwaysFails = some run ∧
      FiniteRetryStrategy.Apply { retryAll 3 5 0 with BackoffStrategy := Stable } alwaysFails =
        some run ∧
      ∀ i d b, Event.wait i d b ∈ run.trace → d = (retryAll 3 5 0).FirstRetryDuration :=
  apply_other_backoff_as_stable (retryAll 3 5 0) alwaysFails (by decide)

end Retry

namespace Master

/-! ## The modelled scheduler -/

theorem Bind_ok (st : Scheduler) (name source : String) (w : Worker)
    (hw : st.workers name = some w) (hfree : w.stage = WorkerStage.WorkerFree) :
    Bind st name source = .ok { st with
      workers := Function.update st.workers name
        (some { w with stage := WorkerStage.WorkerBound, source := some source })
      bounds := Function.update st.bounds source (some name) } := by
  simp [Bind, hw, hfree]

theorem Bind_error (st : Scheduler) (name source : String)
    (h : ∀ w, st.workers name = some w → w.stage ≠ WorkerStage.WorkerFree) :
    ∃ e, Bind st name source = .error e := by
  unfold Bind
  cases hw : st.workers name with
  | none => exact ⟨_, rfl⟩
  | some w => simp [h w hw]

theorem Unbind_ok (st : Scheduler) (name : String) (w : Worker)
    (hw : st.workers name = some w) (hb : w.stage = WorkerStage.WorkerBound) :
    Unbind st name = .ok { st with
      workers := Function.update st.workers name
        (some { w with stage := WorkerStage.WorkerFree, source := none })
      bounds :=
        match w.source with
        | some s => Function.update st.bounds s none
        | none => st.bounds } := by
  simp [Unbind, hw, hb]

theorem Unbind_error (st : Scheduler) (name : String)
    (h : ∀ w, st.workers name = some w → w.stage ≠ WorkerStage.WorkerBound) :
    ∃ e, Unbind st name = .error e := by
  unfold Unbind
  cases hw : st.workers name with
  | none => exact ⟨_, rfl⟩
  | some w => simp [h w hw]

/-- When `Transfer` succeeds, the target was `Free`, the worker that the
source was bound to (if any) was `Bound`, and the new state is the old one
with that worker unbound and the target bound. -/
theorem transferSource_ok (st st' : Scheduler) (source target : String)
    (h : transferSource st source target = .ok st') :
    (∃ t, st.workers target = some t ∧ t.stage = WorkerStage.WorkerFree) ∧
    (∀ old, st.bounds source = some old →
      old ≠ target ∧ (st'.workers old).map (fun w => w.stage) = some WorkerStage.WorkerFree) ∧
    (st'.workers target).map (fun w => (w.stage, w.source)) =
      some (WorkerStage.WorkerBound, some source) ∧
    st'.bounds source = some target := by
  unfold transferSource at h
  cases ht : st.workers target with
  | none => simp [ht] at h
  | some t =>
    by_cases hfree : t.stage = WorkerStage.WorkerFree
    · simp only [ht, hfree, if_true] at h
      refine ⟨⟨t, rfl, hfree⟩, ?_⟩
      cases hb : st.bounds source with
      | none =>
        simp only [hb] at h
        rw [Bind_ok st target source t ht hfree] at h
        cases h
        simp
      | some old =>
        simp only [hb] at h
        cases ho : st.workers old with
        | none =>
          obtain ⟨e, he⟩ := Unbind_error st old (fun w hw => by simp [ho] at hw)
          simp [he] at h
        | some o =>
          by_cases hbound : o.stage = WorkerStage.WorkerBound
          · have hne : old ≠ target := by
              intro heq
              rw [heq, ht] at ho
              cases ho
              rw [hfree] at hbound
              cases hbound
            have hne' : target ≠ old := fun heq => hne heq.symm
            rw [Unbind_ok st old o ho hbound] at h
            simp only at h
            rw [Bind_ok _ target source t (by simp [Function.update_noteq hne', ht]) hfree] at h
            cases h
            refine ⟨?_, ?_, ?_⟩
            · intro old' hold'
              cases hold'
              exact ⟨hne, by simp [Function.update_noteq hne]⟩
            · simp
            · simp
          · obtain ⟨e, he⟩ := Unbind_error st old (fun w hw => by
              rw [ho] at hw
              cases hw
              exact hbound)
            simp [he] at h
    · simp [ht, hfree] at h

/-- `Transfer` succeeds when the target is `Free` and the worker that the
source is bound to, if any, is `Bound`. -/
theorem transferSource_succeeds (st : Scheduler) (source target : String) (t : Worker)
    (ht : st.workers target = some t) (hfree : t.stage = WorkerStage.WorkerFree)
    (hold : ∀ old, st.bounds source = some old →
      ∃ o, st.workers old = some o ∧ o.stage = WorkerStage.WorkerBound) :
    ∃ st', transferSource st source target = .ok st' := by
  unfold transferSource
  simp only [ht, hfree, if_true]
  cases hb : st.bounds source with
  | none => exact ⟨_, Bind_ok st target source t ht hfree⟩
  | some old =>
    obtain ⟨o, ho, hbound⟩ := hold old hb
    have hne' : target ≠ old := by
      intro heq
      rw [← heq, ht] at ho
      cases ho
      rw [hfree] at hbound
      cases hbound
    simp only [Unbind_ok st old o ho hbound]
    exact ⟨_, Bind_ok _ target source t (by simp [Function.update_noteq hne', ht]) hfree⟩

theorem firstFree_none (st : Scheduler)
    (hzero : ∀ name w, st.workers name = some w → w.stage ≠ WorkerStage.WorkerFree) :
    firstFree st = none := by
  unfold firstFree
  rw [List.find?_eq_none]
  intro name _
  unfold isFree
  cases hw : st.workers name with
  | none => simp
  | some w => simpa using hzero name w hw

/-- Setting the enabled flag touches the stored configuration of that source
only. -/
theorem setEnable_effect (st : Scheduler) (s : String) :
    (setEnable st s true).bounds = st.bounds ∧
    (setEnable st s true).workers = st.workers ∧
    (∀ c, st.sourceCfgs s = some c →
      (setEnable st s true).sourceCfgs s = some { c with Enable := true }) ∧
    (∀ src, src ≠ s → (setEnable st s true).sourceCfgs src = st.sourceCfgs src) ∧
    (setEnable st s true).expectSubTaskStages = st.expectSubTaskStages := by
  unfold setEnable
  cases hc : st.sourceCfgs s with
  | none => exact ⟨rfl, rfl, fun c hc' => (by cases hc'), fun _ _ => rfl, rfl⟩
  | some c =>
    refine ⟨rfl, rfl, fun c' hc' => ?_, fun src hne => ?_, rfl⟩
    · cases hc'
      simp
    · simp [Function.update_noteq hne]

/-- What a successful `Enable` without a named worker leaves behind: the
source is bound, its stored flag is set, and no other source is touched. -/
theorem enableSource_ok (st st1 : Scheduler) (s : String)
    (h : enableSource st s none = .ok st1) :
    (st1.bounds s).isSome = true ∧
    (∀ c, st.sourceCfgs s = some c → st1.sourceCfgs s = some { c with Enable := true }) ∧
    (∀ src, src ≠ s → st1.bounds src = st.bounds src ∧ st1.sourceCfgs src = st.sourceCfgs src) ∧
    (∀ k, st1.expectSubTaskStages k = st.expectSubTaskStages k) := by
  unfold enableSource at h
  cases hbs : st.bounds s with
  | some w0 =>
    simp only [hbs, Except.ok.injEq] at h
    subst h
    obtain ⟨hb, _, hc, hrest, he⟩ := setEnable_effect st s
    exact ⟨by rw [hb, hbs]; rfl, hc, fun src hne => ⟨by rw [hb], hrest src hne⟩,
      fun k => by rw [he]⟩
  | none =>
    simp only [hbs] at h
    cases hf : firstFree st with
    | none => simp [hf] at h
    | some w =>
      simp only [hf] at h
      cases hw : st.workers w with
      | none => simp [Bind, hw] at h
      | some wr =>
        by_cases hfree : wr.stage = WorkerStage.WorkerFree
        · rw [Bind_ok st w s wr hw hfree] at h
          simp only [Except.ok.injEq] at h
          subst h
          obtain ⟨hb, _, hc, hrest, he⟩ := setEnable_effect
            { st with
              workers := Function.update st.workers w
                (some { wr with stage := WorkerStage.WorkerBound, source := some s })
              bounds := Function.update st.bounds s (some w) } s
          refine ⟨by rw [hb]; simp, fun c hcs => hc c hcs, fun src hne => ⟨?_, hrest src hne⟩,
            fun k => by rw [he]⟩
          rw [hb]
          simp [Function.update_noteq hne]
        · simp [Bind, hw, hfree] at h

theorem setExpectStage_get (st : Scheduler) (task : Task) (stage : Stage) (src : String)
    (h : src ∈ task.Sources) :
    GetExpectSubTaskStage (setExpectStage st task stage) task.Name src = some stage := by
  simp [GetExpectSubTaskStage, setExpectStage, h]

/-! ## The contract of the modelled scheduler -/

/-- C12: transfer of a source to a target worker is all-or-nothing.  For
every scheduler state, `transferSource(source, W)` either succeeds, with the
previously bound worker (if any) in stage `Free` and `W` in stage `Bound`,
bound to the source, or fails and leaves the binding of the source and every
worker unchanged.  It does succeed when `W` is `Free` and the worker the
source is bound to, if any, is `Bound`. -/
theorem transferSource_all_or_nothing (st : Scheduler) (source W : String) :
    ((∃ st', transferSource st source W = .ok st' ∧
        (∀ old, st.bounds source = some old →
          (st'.workers old).map (fun w => w.stage) = some WorkerStage.WorkerFree) ∧
        (st'.workers W).map (fun w => (w.stage, w.source)) =
          some (WorkerStage.WorkerBound, some source) ∧
        st'.bounds source = some W) ∨
      (∃ err, transferSource st source W = .error err ∧
        (stateAfter st (transferSource st source W)).bounds source = st.bounds source ∧
        ∀ name, (stateAfter st (transferSource st source W)).workers name =
          st.workers name)) ∧
    (∀ t, st.workers W = some t → t.stage = WorkerStage.WorkerFree →
      (∀ old, st.bounds source = some old →
        ∃ o, st.workers old = some o ∧ o.stage = WorkerStage.WorkerBound) →
      ∃ st', transferSource st source W = .ok st') := by
  refine ⟨?_, fun t ht hfree hold => transferSource_succeeds st source W t ht hfree hold⟩
  cases h : transferSource st source W with
  | ok st' =>
    left
    obtain ⟨_, hold, hW, hb⟩ := transferSource_ok st st' source W h
    exact ⟨st', rfl, fun old ho => (hold old ho).2, hW, hb⟩
  | error e =>
    right
    exact ⟨e, rfl, rfl, fun _ => rfl⟩

/-- The workers of `oneBoundWorker`: only `worker1`, which is `Bound` to the
test source. -/
theorem oneBoundWorker_workers :
    oneBoundWorker.workers =
      Function.update
        (Function.update
          (Function.update (fun _ => none) "worker1"
            (some ⟨"172.16.10.72:8262", WorkerStage.WorkerOffline, none⟩))
          "worker1" (some ⟨"172.16.10.72:8262", WorkerStage.WorkerFree, none⟩))
        "worker1" (some ⟨"172.16.10.72:8262", WorkerStage.WorkerBound, some "mysql-01"⟩) :=
  rfl

/-- The workers of `noFreeWorker`: `worker1`, which is `Bound` to another
source, and `worker2`, which is `Offline`. -/
theorem noFreeWorker_workers :
    noFreeWorker.workers =
      Function.update
        (Function.update
          (Function.update
            (Function.update (fun _ => none) "worker1"
              (some ⟨"172.16.10.72:8262", WorkerStage.WorkerOffline, none⟩))
            "worker1" (some ⟨"172.16.10.72:8262", WorkerStage.WorkerFree, none⟩))
          "worker1" (some ⟨"172.16.10.72:8262", WorkerStage.WorkerBound, some "mysql-02"⟩))
        "worker2" (some ⟨"172.16.10.72:8263", WorkerStage.WorkerOffline, none⟩) :=
  rfl

theorem oneBoundWorker_none_free (name : String) (w : Worker)
    (h : oneBoundWorker.workers name = some w) : w.stage ≠ WorkerStage.WorkerFree := by
  rw [oneBoundWorker_workers] at h
  by_cases h1 : name = "worker1"
  · subst h1
    simp only [Function.update_same, Option.some.injEq] at h
    subst h
    decide
  · simp [Function.update_noteq h1] at h

theorem noFreeWorker_none_free (name : String) (w : Worker)
    (h : noFreeWorker.workers name = some w) : w.stage ≠ WorkerStage.WorkerFree := by
  rw [noFreeWorker_workers] at h
  by_cases h2 : name = "worker2"
  · subst h2
    simp only [Function.update_same, Option.some.injEq] at h
    subst h
    decide
  · by_cases h1 : name = "worker1"
    · subst h1
      simp only [Function.update_noteq h2, Function.update_same, Option.some.injEq] at h
      subst h
      decide
    · simp [Function.update_noteq h2, Function.update_noteq h1] at h

/-- C13, as the claim states it, fails on the model, which follows the test
at lines 508-528 here: the test source is bound to the only worker, no
worker is `Free`, and enabling the source does not fail with "no free
worker"; it succeeds and the source stays bound to that worker. -/
theorem enableSource_bound_counterexample :
    (∀ name w, oneBoundWorker.workers name = some w → w.stage ≠ WorkerStage.WorkerFree) ∧
    (enableSource oneBoundWorker "mysql-01" none).toOption.map
        (fun st => (st.bounds "mysql-01", (st.workers "worker1").map (fun w => w.stage))) =
      some (some "worker1", some WorkerStage.WorkerBound) ∧
    ¬ (enableSource oneBoundWorker "mysql-01" none = .error Error.ErrWorkerNoStart) := by
  have hok : (enableSource oneBoundWorker "mysql-01" none).toOption.map
        (fun st => (st.bounds "mysql-01", (st.workers "worker1").map (fun w => w.stage))) =
      some (some "worker1", some WorkerStage.WorkerBound) := by decide
  refine ⟨oneBoundWorker_none_free, hok, fun herr => ?_⟩
  rw [herr] at hok
  cases hok

/-- C13, amended: for every scheduler state with zero `Free` workers,
enabling a source that is bound to no worker fails with the "no free worker"
error (`ErrWorkerNoStart`), mutates nothing and leaves the source unbound;
enabling a source that is already bound succeeds without a `Free` worker and
leaves the source on its worker and every worker as it was. -/
theorem enableSource_unbound_no_free_worker (st : Scheduler) (source : String)
    (hzero : ∀ name w, st.workers name = some w → w.stage ≠ WorkerStage.WorkerFree) :
    (st.bounds source = none →
      enableSource st source none = .error Error.ErrWorkerNoStart ∧
      (stateAfter st (enableSource st source none)).bounds source = none ∧
      (∀ name, (stateAfter st (enableSource st source none)).workers name =
        st.workers name)) ∧
    (∀ w, st.bounds source = some w →
      ∃ st', enableSource st source none = .ok st' ∧ st'.bounds source = some w ∧
        (∀ name, st'.workers name = st.workers name)) := by
  refine ⟨fun hnone => ?_, fun w hw => ?_⟩
  · have h : enableSource st source none = .error Error.ErrWorkerNoStart := by
      simp [enableSource, hnone, firstFree_none st hzero]
    rw [h]
    exact ⟨rfl, hnone, fun _ => rfl⟩
  · obtain ⟨hb, hwk, _, _, _⟩ := setEnable_effect st source
    refine ⟨setEnable st source true, by simp [enableSource, hw], by rw [hb, hw],
      fun name => by rw [hwk]⟩

/-- Witness of amended C13: two workers, one `Bound` to another source and
one `Offline`; the test source is bound to no worker. -/
theorem enableSource_unbound_no_free_worker_witness :
    (noFreeWorker.bounds "mysql-01" = none →
      enableSource noFreeWorker "mysql-01" none = .error Error.ErrWorkerNoStart ∧
      (stateAfter noFreeWorker (enableSource noFreeWorker "mysql-01" none)).bounds "mysql-01" =
        none ∧
      (∀ name, (stateAfter noFreeWorker (enableSource noFreeWorker "mysql-01" none)).workers
        name = noFreeWorker.workers name)) ∧
    (∀ w, noFreeWorker.bounds "mysql-01" = some w →
      ∃ st', enableSource noFreeWorker "mysql-01" none = .ok st' ∧
        st'.bounds "mysql-01" = some w ∧
        (∀ name, st'.workers name = noFreeWorker.workers name)) ∧
    noFreeWorker.bounds "mysql-01" = none ∧
    noFreeWorker.workerNames = ["worker1", "worker2"] :=
  ⟨(enableSource_unbound_no_free_worker noFreeWorker "mysql-01" noFreeWorker_none_free).1,
    (enableSource_unbound_no_free_worker noFreeWorker "mysql-01" noFreeWorker_none_free).2,
    by decide, by decide⟩

/-- C14: updating a stored source with the password omitted keeps the stored
password, updating it with an explicit password stores that password, and
creating a source without password stores the empty string. -/
theorem updateSource_keeps_omitted_password (st : Scheduler) (req : Source)
    (old : SourceConfig) (hold : st.sourceCfgs req.SourceName = some old) :
    (∃ st', updateSource st req.SourceName { req with Password := none } = .ok st' ∧
      (GetSourceCfgByID st' req.SourceName).map (fun c => c.From.Password) =
        some old.From.Password) ∧
    (∀ p, ∃ st', updateSource st req.SourceName { req with Password := some p } = .ok st' ∧
      (GetSourceCfgByID st' req.SourceName).map (fun c => c.From.Password) = some p) ∧
    (∀ st0 : Scheduler, st0.sourceCfgs req.SourceName = none →
      ∃ st', createSource st0 { req with Password := none } = .ok st' ∧
        (GetSourceCfgByID st' req.SourceName).map (fun c => c.From.Password) = some "") := by
  refine ⟨?_, fun p => ?_, fun st0 h0 => ?_⟩
  · have h : updateSource st req.SourceName { req with Password := none } =
        .ok { st with
          sourceCfgs := Function.update st.sourceCfgs req.SourceName
            (some (toSourceConfig { req with Password := none } old.From.Password)) } := by
      simp [updateSource, hold]
    exact ⟨_, h, by simp [GetSourceCfgByID, toSourceConfig]⟩
  · have h : updateSource st req.SourceName { req with Password := some p } =
        .ok { st with
          sourceCfgs := Function.update st.sourceCfgs req.SourceName
            (some (toSourceConfig { req with Password := some p } p)) } := by
      simp [updateSource, hold]
    exact ⟨_, h, by simp [GetSourceCfgByID, toSourceConfig]⟩
  · have h : createSource st0 { req with Password := none } =
        .ok { st0 with
          sourceCfgs := Function.update st0.sourceCfgs req.SourceName
            (some (toSourceConfig { req with Password := none } "")) } := by
      simp [createSource, h0]
    exact ⟨_, h, by simp [GetSourceCfgByID, toSourceConfig]⟩

/-- Witness of C14: the test source stored with its password. -/
theorem updateSource_keeps_omitted_password_witness :
    (∃ st', updateSource noWorker testSource.SourceName { testSource with Password := none } =
        .ok st' ∧
      (GetSourceCfgByID st' testSource.SourceName).map (fun c => c.From.Password) =
        some (toSourceConfig testSource "123456").From.Password) ∧
    (∀ p, ∃ st', updateSource noWorker testSource.SourceName
        { testSource with Password := some p } = .ok st' ∧
      (GetSourceCfgByID st' testSource.SourceName).map (fun c => c.From.Password) = some p) ∧
    (∀ st0 : Scheduler, st0.sourceCfgs testSource.SourceName = none →
      ∃ st', createSource st0 { testSource with Password := none } = .ok st' ∧
        (GetSourceCfgByID st' testSource.SourceName).map (fun c => c.From.Password) =
          some "") :=
  updateSource_keeps_omitted_password noWorker testSource (toSourceConfig testSource "123456")
    (by decide)

/-- C15: starting a task when a source it references is disabled fails
entirely with `ErrMasterStartTask` and changes no desired stage.  After that
source is enabled (it is stored, and the other referenced sources are
enabled and bound), start succeeds and the desired stage of every
(task, source) pair is `Running`; a following stop sets it to `Stopped`. -/
theorem startTask_needs_enabled_sources (st : Scheduler) (task : Task) (s : String)
    (hs : s ∈ task.Sources) (hdis : sourceEnabled st s = false) :
    startTask st task = .error Error.ErrMasterStartTask ∧
    (∀ k, (stateAfter st (startTask st task)).expectSubTaskStages k =
      st.expectSubTaskStages k) ∧
    (∀ st1, (st.sourceCfgs s).isSome = true →
      (∀ src, src ∈ task.Sources → src ≠ s → sourceReady st src = true) →
      enableSource st s none = .ok st1 →
      ∃ st2, startTask st1 task = .ok st2 ∧
        (∀ src, src ∈ task.Sources →
          GetExpectSubTaskStage st2 task.Name src = some Stage.Running) ∧
        ∃ st3, stopTask st2 task = .ok st3 ∧
          ∀ src, src ∈ task.Sources →
            GetExpectSubTaskStage st3 task.Name src = some Stage.Stopped) := by
  have hfail : startTask st task = .error Error.ErrMasterStartTask := by
    unfold startTask
    have hnot : ¬ (task.Sources.all (sourceReady st) = true) := by
      rw [List.all_eq_true]
      intro hall
      have := hall s hs
      simp [sourceReady, hdis] at this
    simp [hnot]
  refine ⟨hfail, ?_, ?_⟩
  · intro k
    rw [hfail]
    rfl
  · intro st1 hreg hothers hen
    obtain ⟨hb, hcfg, hrest, _⟩ := enableSource_ok st st1 s hen
    have hready : task.Sources.all (sourceReady st1) = true := by
      rw [List.all_eq_true]
      intro src hsrc
      by_cases hsame : src = s
      · subst hsame
        obtain ⟨c, hc⟩ := Option.isSome_iff_exists.mp hreg
        simp [sourceReady, sourceEnabled, hcfg c hc, hb]
      · have h1 := hothers src hsrc hsame
        obtain ⟨hb', hc'⟩ := hrest src hsame
        simpa [sourceReady, sourceEnabled, hb', hc'] using h1
    refine ⟨setExpectStage st1 task Stage.Running, by simp [startTask, hready],
      fun src hsrc => setExpectStage_get st1 task Stage.Running src hsrc,
      setExpectStage _ task Stage.Stopped, rfl,
      fun src hsrc => setExpectStage_get _ task Stage.Stopped src hsrc⟩

/-- Witness of C15: the test task on the disabled test source with one `Free`
worker; start fails, and after the source is enabled start and stop succeed. -/
theorem startTask_needs_enabled_sources_witness :
    startTask oneFreeWorker testTask = .error Error.ErrMasterStartTask ∧
    ∃ st2, startTask (andThen oneFreeWorker (fun st => enableSource st "mysql-01" none))
        testTask = .ok st2 ∧
      (∀ src, src ∈ testTask.Sources →
        GetExpectSubTaskStage st2 testTask.Name src = some Stage.Running) ∧
      ∃ st3, stopTask st2 testTask = .ok st3 ∧
        ∀ src, src ∈ testTask.Sources →
          GetExpectSubTaskStage st3 testTask.Name src = some Stage.Stopped :=
  have h := startTask_needs_enabled_sources oneFreeWorker testTask "mysql-01"
    (by decide) (by decide)
  ⟨h.1, h.2.2 (andThen oneFreeWorker (fun st => enableSource st "mysql-01" none))
    (by decide) (fun src hsrc hne => absurd (by simpa [testTask] using hsrc) hne) rfl⟩

/-- C16: task conversion round-trips.  For every task whose security field
is absent, converting the task gives the task and its file form; converting
the serialised file form back gives an equal task, and serialising the file
form obtained on the way back gives the same serialised file form. -/
theorem convertTaskConfig_round_trip {φ : Type} (codec : TaskCodec φ) (t : Task)
    (hsec : t.Security = none) :
    ∃ cfg, convertTaskConfig codec ⟨some t, none⟩ = .ok (t, cfg) ∧
      ∃ cfg2, convertTaskConfig codec ⟨none, some (codec.marshal cfg)⟩ = .ok (t, cfg2) ∧
        codec.marshal cfg2 = codec.marshal cfg := by
  refine ⟨TaskToTaskConfig t, rfl, TaskToTaskConfig t, ?_, rfl⟩
  have hback : TaskConfigToTask (TaskToTaskConfig t) = t := by
    cases t
    simp only at hsec
    subst hsec
    rfl
  simp [convertTaskConfig, codec.lossless, hback]

/-- Witness of C16: the test task, which has no security field. -/
theorem convertTaskConfig_round_trip_witness :
    ∃ cfg, convertTaskConfig plainCodec ⟨some testTask, none⟩ = .ok (testTask, cfg) ∧
      ∃ cfg2, convertTaskConfig plainCodec ⟨none, some (plainCodec.marshal cfg)⟩ =
          .ok (testTask, cfg2) ∧
        plainCodec.marshal cfg2 = plainCodec.marshal cfg :=
  convertTaskConfig_round_trip plainCodec testTask rfl

end Master
